import Mathlib

/-!
# Verification of the gemini-to-word-equations conversion core

A shallow embedding, over `List Char`, of `src/utils/latexConverter.ts`:
the accent normalizer, the `$`/`$$` segmenter, the placeholder weaver and
the docx paragraph builder, together with proofs of the behavioural claims
of the specification.

Strings are modelled as `List Char`.  JavaScript regular-expression scans
are modelled by explicit left-to-right scanners; the scanners use a fuel
argument (always instantiated with the input's length) so that every
definition is structurally recursive and kernel-computable.
-/

namespace LatexConverter

/-! ## Character classes

`\s` of a JavaScript regex (the whitespace class used by
`normalizeAccentsToUnicode`'s pattern, latexConverter.ts:46), and the
ASCII-letter class `[A-Za-z]`. -/

/-- latexConverter.ts:46 — the JS `\s` class: the characters the pattern
`\s*` can skip between the macro name and the brace. -/
def isJsWhitespace (c : Char) : Bool :=
  c = ' ' || c = '\t' || c = '\n' || c = '\r' || c = '\u000b' || c = '\u000c' ||
  c = '\u00a0' || c = '\u1680' || ('\u2000' ≤ c && c ≤ '\u200a') ||
  c = '\u2028' || c = '\u2029' || c = '\u202f' || c = '\u205f' ||
  c = '\u3000' || c = '\ufeff'

/-- latexConverter.ts:46 — the `[A-Za-z]` class capturing the accented
letter. -/
def isAsciiLetter (c : Char) : Bool :=
  ('A' ≤ c && c ≤ 'Z') || ('a' ≤ c && c ≤ 'z')

/-- A character that can occur inside an accent-macro match: backslash,
an ASCII letter (macro name or captured letter), JS whitespace, or a
brace.  Every character of a matched span belongs to this class. -/
def isPatChar (c : Char) : Bool :=
  c = '\\' || isAsciiLetter c || isJsWhitespace c || c = '{' || c = '}'

/-! ## The accent tables (latexConverter.ts:20-40, `LATEX_ACCENT_MAP`) -/

/-- latexConverter.ts:21-26 — the `\hat` table. -/
def hatTable : Char → Option (List Char)
  | 'A' => some ['Â'] | 'a' => some ['â'] | 'E' => some ['Ê'] | 'e' => some ['ê']
  | 'I' => some ['Î'] | 'i' => some ['î'] | 'O' => some ['Ô'] | 'o' => some ['ô']
  | 'U' => some ['Û'] | 'u' => some ['û'] | 'Y' => some ['Ŷ'] | 'y' => some ['ŷ']
  | 'W' => some ['Ŵ'] | 'w' => some ['ŵ'] | 'Z' => some ['Ẑ'] | 'z' => some ['ẑ']
  | 'C' => some ['Ĉ'] | 'c' => some ['ĉ'] | 'G' => some ['Ĝ'] | 'g' => some ['ĝ']
  | 'H' => some ['Ĥ'] | 'h' => some ['ĥ'] | 'S' => some ['Ŝ'] | 's' => some ['ŝ']
  | _ => none

/-- latexConverter.ts:27-31 — the `\bar` table; `x`/`X` map to the letter
followed by a combining macron. -/
def barTable : Char → Option (List Char)
  | 'A' => some ['Ā'] | 'a' => some ['ā'] | 'E' => some ['Ē'] | 'e' => some ['ē']
  | 'I' => some ['Ī'] | 'i' => some ['ī'] | 'O' => some ['Ō'] | 'o' => some ['ō']
  | 'U' => some ['Ū'] | 'u' => some ['ū'] | 'Y' => some ['Ȳ'] | 'y' => some ['ȳ']
  | 'x' => some ['x', '̄'] | 'X' => some ['X', '̄']
  | _ => none

/-- latexConverter.ts:32-36 — the `\tilde` table. -/
def tildeTable : Char → Option (List Char)
  | 'A' => some ['Ã'] | 'a' => some ['ã'] | 'N' => some ['Ñ'] | 'n' => some ['ñ']
  | 'O' => some ['Õ'] | 'o' => some ['õ'] | 'I' => some ['Ĩ'] | 'i' => some ['ĩ']
  | 'U' => some ['Ũ'] | 'u' => some ['ũ'] | 'Y' => some ['Ỹ'] | 'y' => some ['ỹ']
  | 'v' => some ['ṽ'] | 'V' => some ['Ṽ']
  | _ => none

/-- latexConverter.ts:37-39 — the `\dot` table. -/
def dotTable : Char → Option (List Char)
  | 'x' => some ['ẋ'] | 'X' => some ['Ẋ'] | 'y' => some ['ẏ'] | 'Y' => some ['Ẏ']
  | 'z' => some ['ż'] | 'Z' => some ['Ż']
  | _ => none

/-! ## The accent-macro matcher

`new RegExp(String.raw`\\${macroName}\s*\{([A-Za-z])\}`, 'g')`
(latexConverter.ts:46), tried at one position. -/

/-- latexConverter.ts:46 — attempt the pattern `\name\s*\{(letter)\}` at the
head of `s`.  On success returns the matched span, the captured letter, and
the remainder of the input. -/
def matchAccentAt (name : List Char) (s : List Char) :
    Option (List Char × Char × List Char) :=
  match s with
  | '\\' :: t =>
    if name.isPrefixOf t then
      match (t.drop name.length).dropWhile isJsWhitespace with
      | '{' :: l :: '}' :: rest =>
        if isAsciiLetter l then
          some ('\\' :: name ++ (t.drop name.length).takeWhile isJsWhitespace ++
            ['{', l, '}'], l, rest)
        else none
      | _ => none
    else none
  | _ => none

/-- latexConverter.ts:47 — one global-replace pass
`output.replace(pattern, (match, letter) => table[letter] ?? match)`,
scanning left to right; a mapped letter is replaced by its table entry, an
unmapped match is copied verbatim, and scanning resumes after the match.
`fuel` bounds the recursion and is instantiated with the input length. -/
def replaceMacroGo (name : List Char) (table : Char → Option (List Char)) :
    Nat → List Char → List Char
  | _, [] => []
  | 0, s => s
  | n + 1, c :: cs =>
    match matchAccentAt name (c :: cs) with
    | some (matched, l, rest) =>
      match table l with
      | some rep => rep ++ replaceMacroGo name table n rest
      | none => matched ++ replaceMacroGo name table n rest
    | none => c :: replaceMacroGo name table n cs

/-- One full pass of `output.replace(pattern, …)` for one macro. -/
def replaceMacro (name : List Char) (table : Char → Option (List Char))
    (s : List Char) : List Char :=
  replaceMacroGo name table s.length s

/-- latexConverter.ts:42-50 — `normalizeAccentsToUnicode`: the four passes,
in the insertion order of `LATEX_ACCENT_MAP` (hat, bar, tilde, dot). -/
def normalizeAccentsToUnicode (s : List Char) : List Char :=
  replaceMacro ['d', 'o', 't'] dotTable
    (replaceMacro ['t', 'i', 'l', 'd', 'e'] tildeTable
      (replaceMacro ['b', 'a', 'r'] barTable
        (replaceMacro ['h', 'a', 't'] hatTable s)))

/-! ## The math segmenter

`const regex = /\$\$([\s\S]+?)\$\$|\$([^\n$]+?)\$/g` (latexConverter.ts:52)
and `tokenize` (latexConverter.ts:54-72). -/

/-- The first occurrence of `$$` in `s`: returns the text before it and the
text after it.  Models the lazy search for the closing delimiter of
`\$\$([\s\S]+?)\$\$`. -/
def findDollarDollar : List Char → Option (List Char × List Char)
  | [] => none
  | c :: rest =>
    if c = '$' ∧ rest.head? = some '$' then some ([], rest.tail)
    else (findDollarDollar rest).map (fun p => (c :: p.1, p.2))

/-- latexConverter.ts:52, first alternative — try `\$\$([\s\S]+?)\$\$` at the
head of `s`: two dollars, then a non-empty lazy content, then the earliest
closing `$$`.  Returns `(content, rest)`. -/
def blockMatchAt : List Char → Option (List Char × List Char)
  | '$' :: '$' :: c :: t => (findDollarDollar t).map (fun p => (c :: p.1, p.2))
  | _ => none

/-- Scan for the closing `$` of the inline alternative: content characters
are anything but `\n` and `$`; the first `$` closes. -/
def inlineCont : List Char → Option (List Char × List Char)
  | [] => none
  | c :: rest =>
    if c = '$' then some ([], rest)
    else if c = '\n' then none
    else (inlineCont rest).map (fun p => (c :: p.1, p.2))

/-- latexConverter.ts:52, second alternative — try `\$([^\n$]+?)\$` at the
head of `s`: one dollar, a non-empty run of characters other than `\n` and
`$`, then the closing dollar. -/
def inlineMatchAt : List Char → Option (List Char × List Char)
  | '$' :: c :: t =>
    if c = '$' || c = '\n' then none
    else (inlineCont t).map (fun p => (c :: p.1, p.2))
  | _ => none

/-- latexConverter.ts:52 — the full alternation tried at one position:
the block alternative wins over the inline one.  Returns
`(content, isBlock, rest)`. -/
def mathMatchAt (s : List Char) : Option (List Char × Bool × List Char) :=
  match blockMatchAt s with
  | some (content, rest) => some (content, true, rest)
  | none =>
    match inlineMatchAt s with
    | some (content, rest) => some (content, false, rest)
    | none => none

/-- latexConverter.ts:61,65,69 — the ids `t-${i}` / `m-${i}`. -/
def tokenId (c : Char) (i : Nat) : List Char :=
  c :: '-' :: Nat.toDigits 10 i

/-- latexConverter.ts:55 — the raw segments `tokenize` produces. -/
inductive RawTok where
  | text (id : List Char) (text : List Char)
  | latex (id : List Char) (latex : List Char) (displayMode : Bool)
deriving DecidableEq

/-- latexConverter.ts:54-72 — the `regex.exec` loop: `pending` is the text
accumulated (in reverse) since the previous match (`lastIndex`), `i` is the
shared id counter.  A match flushes the pending text as a text token and
emits a latex token; the trailing text is flushed at the end. -/
def tokenizeGo : Nat → List Char → List Char → Nat → List RawTok
  | _, [], pending, i =>
    if pending = [] then [] else [.text (tokenId 't' i) pending.reverse]
  | 0, s, pending, i =>
    if pending.reverse ++ s = [] then []
    else [.text (tokenId 't' i) (pending.reverse ++ s)]
  | fuel + 1, c :: cs, pending, i =>
    match mathMatchAt (c :: cs) with
    | some (content, isBlock, rest) =>
      (if pending = [] then [] else [RawTok.text (tokenId 't' i) pending.reverse]) ++
      RawTok.latex (tokenId 'm' (if pending = [] then i else i + 1)) content isBlock ::
      tokenizeGo fuel rest [] ((if pending = [] then i else i + 1) + 1)
    | none => tokenizeGo fuel cs (c :: pending) i

/-- latexConverter.ts:54-72 — `tokenize`. -/
def tokenize (s : List Char) : List RawTok :=
  tokenizeGo s.length s [] 0

/-! ## Conversion (latexConverter.ts:74-100)

The three renderers (`katex.renderToString`, `Temml.renderToString`,
`mml2omml`) are external libraries; they enter the embedding as opaque
function parameters. -/

/-- latexConverter.ts:8-18 — the converted token union. -/
inductive Token where
  | text (id : List Char) (text : List Char)
  | math (id : List Char) (latex : List Char) (displayMode : Bool)
      (katexHtml : List Char) (mathml : List Char) (omml : List Char)
deriving DecidableEq

/-- latexConverter.ts:81-100 — `tokenizeAndConvert`: normalize, tokenize,
then convert each latex segment.  `katexF`/`temmlF` take the latex and the
display flag; `ommlF` (mml2omml) takes the MathML output (ts:74-79). -/
def tokenizeAndConvert (katexF temmlF : List Char → Bool → List Char)
    (ommlF : List Char → List Char) (text : List Char) : List Token :=
  (tokenize (normalizeAccentsToUnicode text)).map fun t =>
    match t with
    | .text id txt => Token.text id txt
    | .latex id latex display =>
      Token.math id (normalizeAccentsToUnicode latex) display
        (katexF (normalizeAccentsToUnicode latex) display)
        (temmlF (normalizeAccentsToUnicode latex) display)
        (ommlF (temmlF (normalizeAccentsToUnicode latex) display))

/-- The id of a token. -/
def tokenIdOf : Token → List Char
  | .text id _ => id
  | .math id _ _ _ _ _ => id

/-- The omml field of a token (empty for text tokens). -/
def tokenOmml : Token → List Char
  | .text _ _ => []
  | .math _ _ _ _ _ omml => omml

/-- Whether a token is a math token. -/
def isMathTok : Token → Bool
  | .math _ _ _ _ _ _ => true
  | .text _ _ => false

/-! ## The markdown weaver (latexConverter.ts:102-139)

`marked.parse` is an external library; it enters the embedding as an opaque
function parameter `md`. -/

/-- The literal `MATHPH`. -/
def phOpen : List Char := ['M', 'A', 'T', 'H', 'P', 'H']

/-- The literal `PHMATH`. -/
def phClose : List Char := ['P', 'H', 'M', 'A', 'T', 'H']

/-- latexConverter.ts:102 — `mathPlaceholder`. -/
def mathPlaceholder (id : List Char) : List Char :=
  phOpen ++ id ++ phClose

/-- latexConverter.ts:108-114 — the combined string the weaver feeds to the
markdown renderer: text tokens verbatim, block placeholders wrapped in blank
lines, inline placeholders bare, joined in token order. -/
def combinedOfTokens (tokens : List Token) : List Char :=
  (tokens.map fun t =>
    match t with
    | Token.text _ txt => txt
    | Token.math id _ display _ _ _ =>
      if display then '\n' :: '\n' :: mathPlaceholder id ++ ['\n', '\n']
      else mathPlaceholder id).foldr (· ++ ·) []

/-- latexConverter.ts:160-162 — the combined string `generateDocx` builds
from the same token sequence (a verbatim re-derivation of the weaver's). -/
def combinedDocx (tokens : List Token) : List Char :=
  (tokens.map fun t =>
    match t with
    | Token.text _ txt => txt
    | Token.math id _ display _ _ _ =>
      if display then '\n' :: '\n' :: mathPlaceholder id ++ ['\n', '\n']
      else mathPlaceholder id).foldr (· ++ ·) []

/-- latexConverter.ts:121 — `out.split(ph).join(repl)`: replace every
(leftmost, non-overlapping) occurrence of `p` in `s` by `r`.  `fuel` is
instantiated with the length of `s`. -/
def replaceAllGo (p r : List Char) : Nat → List Char → List Char
  | _, [] => []
  | 0, s => s
  | n + 1, c :: cs =>
    if !p.isEmpty && p.isPrefixOf (c :: cs) then
      r ++ replaceAllGo p r n ((c :: cs).drop p.length)
    else c :: replaceAllGo p r n cs

/-- `out.split(ph).join(repl)` as a function of the string. -/
def replaceAll (p r s : List Char) : List Char :=
  replaceAllGo p r s.length s

/-- latexConverter.ts:104-125 — `renderMarkdownWithPlaceholders`: build the
combined string, render it through the (external) markdown renderer `md`,
then for every math token in token order replace every occurrence of its
placeholder by the replacer's output. -/
def renderMarkdownWithPlaceholders (md : List Char → List Char)
    (tokens : List Token) (replacer : Token → List Char) : List Char :=
  tokens.foldl
    (fun out t =>
      match t with
      | Token.math id _ _ _ _ _ => replaceAll (mathPlaceholder id) (replacer t) out
      | Token.text _ _ => out)
    (md (combinedOfTokens tokens))

/-! ## The document builder (latexConverter.ts:159-382)

The markdown lexer (`marked.lexer`, `Lexer.lexInline`) is an external
library; its block-level and inline-level token shapes are modelled by
`MdBlock`/`MdInline` and the lexers enter as opaque function parameters.
`docx` object construction is modelled by the `Run`/`Paragraph` trees. -/

/-- The inline-level markdown tokens the builder consumes
(latexConverter.ts:228-277): text, strong, em, codespan, br, link, and a
default arm for any other kind (with or without children). -/
inductive MdInline where
  | text (text : List Char)
  | strong (tokens : List MdInline)
  | em (tokens : List MdInline)
  | codespan (text : List Char)
  | br
  | link (tokens : Option (List MdInline)) (text : List Char)
  | other (tokens : Option (List MdInline))

/-- The block-level markdown tokens the builder consumes
(latexConverter.ts:329-359): heading, paragraph, list (items carry their
raw text and their own block children), hr, code, and space.  A list item
is a pair `(text, tokens)`. -/
inductive MdBlock where
  | heading (depth : Nat) (tokens : List MdInline) (text : List Char)
  | paragraph (tokens : List MdInline) (text : List Char)
  | list (items : List (List Char × List MdBlock)) (ordered : Bool)
  | hr
  | code (text : List Char)
  | space

/-- A docx run (latexConverter.ts:187): a styled text run, a native math
object carrying an OMML fragment, or a hard line break. -/
inductive Run where
  | text (text : List Char) (bold : Bool) (italics : Bool)
  | math (omml : List Char)
  | lineBreak
deriving DecidableEq

/-- A docx paragraph (latexConverter.ts:292,318-321,334,340,347,352):
body, heading with level, list item with a numbering reference and level,
or a thematic break. -/
inductive Paragraph where
  | body (children : List Run)
  | heading (children : List Run) (level : Nat)
  | listItem (children : List Run) (reference : List Char) (level : Nat)
  | thematicBreak
deriving DecidableEq

/-- latexConverter.ts:165-168 — the id→math-token map (`Map.set` makes the
last token with a given id win). -/
def mathMapGet (tokens : List Token) (id : List Char) : Option Token :=
  tokens.foldl
    (fun acc t =>
      match t with
      | Token.math i _ _ _ _ _ => if i = id then some t else acc
      | Token.text _ _ => acc)
    none

/-- A character the `.` of `/MATHPH(.+?)PHMATH/` cannot match (JS `.`
excludes the four line terminators). -/
def isDotExcluded (c : Char) : Bool :=
  c = '\n' || c = '\r' || c = ' ' || c = ' '

/-- The lazy `(.+?)PHMATH` search of latexConverter.ts:172: consume at
least one non-terminator character, stopping at the earliest position where
`PHMATH` follows.  Returns the captured id and the text after `PHMATH`. -/
def phIdScan : List Char → Option (List Char × List Char)
  | [] => none
  | c :: cs =>
    if isDotExcluded c then none
    else if phClose.isPrefixOf cs then some ([c], cs.drop 6)
    else (phIdScan cs).map (fun p => (c :: p.1, p.2))

/-- latexConverter.ts:170-184 — the `splitInlineByMath` scan: `pending` is
the text accumulated (in reverse) since the previous match.  A placeholder
match flushes the pending text, then appends the mapped math token — or
nothing at all when the captured id is unknown. -/
def splitInlineByMathGo (tokens : List Token) :
    Nat → List Char → List Char → List ((List Char) ⊕ Token)
  | _, [], pending =>
    if pending = [] then [] else [.inl pending.reverse]
  | 0, s, pending =>
    if pending.reverse ++ s = [] then [] else [.inl (pending.reverse ++ s)]
  | fuel + 1, c :: cs, pending =>
    if phOpen.isPrefixOf (c :: cs) then
      match phIdScan ((c :: cs).drop 6) with
      | some (id, rest) =>
        (if pending = [] then [] else [Sum.inl pending.reverse]) ++
        (match mathMapGet tokens id with
         | some t => [Sum.inr t]
         | none => []) ++
        splitInlineByMathGo tokens fuel rest []
      | none => splitInlineByMathGo tokens fuel cs (c :: pending)
    else splitInlineByMathGo tokens fuel cs (c :: pending)

/-- latexConverter.ts:170-184 — `splitInlineByMath`. -/
def splitInlineByMath (tokens : List Token) (text : List Char) :
    List ((List Char) ⊕ Token) :=
  splitInlineByMathGo tokens text.length text []

/-- latexConverter.ts:188-208 — `emitStyledRuns`: scan for `**` (bold
toggle, checked first) and `*` (italics toggle), flushing the buffered text
(`buf`, kept in reverse) with the current flags at each toggle and at the
end. -/
def emitStyledRuns : List Char → Bool → Bool → List Char → List Run
  | [], bold, italics, buf =>
    if buf = [] then [] else [.text buf.reverse bold italics]
  | '*' :: '*' :: rest, bold, italics, buf =>
    (if buf = [] then [] else [Run.text buf.reverse bold italics]) ++
    emitStyledRuns rest (!bold) italics []
  | '*' :: rest, bold, italics, buf =>
    (if buf = [] then [] else [Run.text buf.reverse bold italics]) ++
    emitStyledRuns rest bold (!italics) []
  | c :: rest, bold, italics, buf => emitStyledRuns rest bold italics (c :: buf)

/-- The `\w` class of the `isOmmlPlain` regex. -/
def isWordChar (c : Char) : Bool :=
  isAsciiLetter c || ('0' ≤ c && c ≤ '9') || c = '_'

/-- latexConverter.ts:238 — one position of `/<m:(?!oMath\b|r\b|t\b|rPr\b)\w+/`:
`<m:` followed by a non-empty word run other than `oMath`, `r`, `t`,
`rPr`. -/
def ommlBadTagAt : List Char → Bool
  | '<' :: 'm' :: ':' :: rest =>
    let w := rest.takeWhile isWordChar
    !w.isEmpty && w ≠ ['o', 'M', 'a', 't', 'h'] && w ≠ ['r'] && w ≠ ['t'] &&
      w ≠ ['r', 'P', 'r']
  | _ => false

/-- The `.test` scan of latexConverter.ts:238: does a structural (non
plain-text) math tag occur anywhere? -/
def ommlHasStructuralTag : List Char → Bool
  | [] => false
  | c :: cs => ommlBadTagAt (c :: cs) || ommlHasStructuralTag cs

/-- latexConverter.ts:238 — `isOmmlPlain`. -/
def isOmmlPlain (xml : List Char) : Bool :=
  !ommlHasStructuralTag xml

/-- latexConverter.ts:241 — one position of `/<m:t[^>]*>([^<]*)<\/m:t>/`. -/
def mtMatchAt : List Char → Option (List Char × List Char)
  | '<' :: 'm' :: ':' :: 't' :: rest =>
    match rest.dropWhile (fun c => c ≠ '>') with
    | '>' :: rest2 =>
      let w := rest2.takeWhile (fun c => c ≠ '<')
      let rest3 := rest2.dropWhile (fun c => c ≠ '<')
      if ['<', '/', 'm', ':', 't', '>'].isPrefixOf rest3 then
        some (w, rest3.drop 6)
      else none
    | _ => none
  | _ => none

/-- latexConverter.ts:239-245 — the `extractTextFromOmml` scan, collecting
every `<m:t…>…</m:t>` capture in order. -/
def extractTextFromOmmlGo : Nat → List Char → List Char
  | _, [] => []
  | 0, _ => []
  | fuel + 1, c :: cs =>
    match mtMatchAt (c :: cs) with
    | some (w, rest) => w ++ extractTextFromOmmlGo fuel rest
    | none => extractTextFromOmmlGo fuel cs

/-- latexConverter.ts:239-245 — `extractTextFromOmml`. -/
def extractTextFromOmml (xml : List Char) : List Char :=
  extractTextFromOmmlGo xml.length xml

/-- latexConverter.ts:209-227 and 294-312 — `inlineTokensFromText` in the
normal environment, where `marked.Lexer.lexInline` exists: it simply calls
the inline lexer (the remaining branches are degraded-environment
fallbacks). -/
def inlineTokensFromText (lexInline : List Char → List MdInline)
    (s : List Char) : List MdInline :=
  lexInline s

/-- latexConverter.ts:186-279 — `inlineTokensToRuns` for a single inline
token.  The `fuel` bounds the recursion into re-lexed and child token
lists; the list version is `inlineTokensToRuns`.  A plain-text node is
re-lexed; if the re-lex gives a single plain-text node the text is split at
placeholders, plain slices go through `emitStyledRuns` and math slices
become a native math run — or, when the OMML is plain text only, styled
text runs of the extracted text. -/
def runsOfInline (lexInline : List Char → List MdInline)
    (tokens : List Token) : Nat → MdInline → Bool → Bool → List Run
  | 0, _, _, _ => []
  | fuel + 1, it, bold, italics =>
    match it with
    | MdInline.text raw =>
      match inlineTokensFromText lexInline raw with
      | [MdInline.text t] =>
        (splitInlineByMath tokens t).foldr
          (fun p acc =>
            (match p with
             | Sum.inl str =>
               if str = [] then [] else emitStyledRuns str bold italics []
             | Sum.inr tok =>
               if isOmmlPlain (tokenOmml tok) then
                 (if extractTextFromOmml (tokenOmml tok) = [] then []
                  else emitStyledRuns (extractTextFromOmml (tokenOmml tok)) bold italics [])
               else [Run.math (tokenOmml tok)]) ++ acc)
          []
      | sub => sub.foldr (fun x acc => runsOfInline lexInline tokens fuel x bold italics ++ acc) []
    | MdInline.strong ts =>
      ts.foldr (fun x acc => runsOfInline lexInline tokens fuel x true italics ++ acc) []
    | MdInline.em ts =>
      ts.foldr (fun x acc => runsOfInline lexInline tokens fuel x bold true ++ acc) []
    | MdInline.codespan t => [Run.text t bold italics]
    | MdInline.br => [Run.lineBreak]
    | MdInline.link ts txt =>
      (ts.getD [MdInline.text txt]).foldr
        (fun x acc => runsOfInline lexInline tokens fuel x bold italics ++ acc) []
    | MdInline.other ts =>
      match ts with
      | some ts2 =>
        ts2.foldr (fun x acc => runsOfInline lexInline tokens fuel x bold italics ++ acc) []
      | none => []

/-- latexConverter.ts:186-279 — `inlineTokensToRuns` over a token list:
the runs of each inline token, concatenated in order. -/
def inlineTokensToRuns (lexInline : List Char → List MdInline)
    (tokens : List Token) (fuel : Nat) (inline : List MdInline)
    (bold italics : Bool) : List Run :=
  inline.foldr (fun x acc => runsOfInline lexInline tokens fuel x bold italics ++ acc) []

/-- latexConverter.ts:281-290 — `headingForDepth` (as the numeric heading
level 1-6). -/
def headingForDepth (d : Nat) : Nat :=
  match d with
  | 1 => 1
  | 2 => 2
  | 3 => 3
  | 4 => 4
  | 5 => 5
  | _ => 6

/-- The string `numbered-list` (latexConverter.ts:320). -/
def numberedRef : List Char :=
  ['n', 'u', 'm', 'b', 'e', 'r', 'e', 'd', '-', 'l', 'i', 's', 't']

/-- The string `bullet-list` (latexConverter.ts:320). -/
def bulletRef : List Char :=
  ['b', 'u', 'l', 'l', 'e', 't', '-', 'l', 'i', 's', 't']

/-- latexConverter.ts:322-323 — `li.tokens.find(t => t.type === 'list')`:
the first nested list among an item's block children (`some` also covers
the `li.tokens.some(...)` guard). -/
def findList : List MdBlock → Option (List (List Char × List MdBlock) × Bool)
  | [] => none
  | MdBlock.list items ordered :: _ => some (items, ordered)
  | _ :: rest => findList rest

/-- latexConverter.ts:314-327 — `listParas`: one paragraph per item, with
the numbering reference chosen by the list's ordered flag and numbering
level 0, then the paragraphs of the item's first nested list (if any).
`ifuel` is the fuel handed to the inline-run conversion, `fuel` bounds the
nesting recursion. -/
def listParas (lexInline : List Char → List MdInline) (tokens : List Token)
    (ifuel : Nat) : Nat → List (List Char × List MdBlock) → Bool → List Paragraph
  | 0, _, _ => []
  | fuel + 1, items, ordered =>
    items.foldr
      (fun li acc =>
        Paragraph.listItem
          (inlineTokensToRuns lexInline tokens ifuel
            (inlineTokensFromText lexInline li.1) false false)
          (if ordered then numberedRef else bulletRef) 0 ::
        (match findList li.2 with
         | some (subItems, subOrdered) =>
           listParas lexInline tokens ifuel fuel subItems subOrdered
         | none => []) ++ acc)
      []

/-- JS `String.split('\n')` (latexConverter.ts:350). -/
def splitOnNl : List Char → List (List Char)
  | [] => [[]]
  | '\n' :: rest => [] :: splitOnNl rest
  | c :: rest =>
    match splitOnNl rest with
    | l :: ls => (c :: l) :: ls
    | [] => [[c]]

/-- latexConverter.ts:159-360 — the paragraph list `generateDocx` builds:
re-derive the combined placeholder string, run it through the (external)
block lexer, and translate each block token.  `ifuel`/`lfuel` are the fuel
for inline-run conversion and list nesting. -/
def generateDocxParagraphs (lexInline : List Char → List MdInline)
    (blockLexer : List Char → List MdBlock) (ifuel lfuel : Nat)
    (tokens : List Token) : List Paragraph :=
  (blockLexer (combinedDocx tokens)).foldr
    (fun tk acc =>
      (match tk with
       | MdBlock.heading depth tks txt =>
         [Paragraph.heading
           (inlineTokensToRuns lexInline tokens ifuel
             (if tks.isEmpty then inlineTokensFromText lexInline txt else tks)
             false false)
           (headingForDepth (if depth = 0 then 1 else depth))]
       | MdBlock.paragraph tks txt =>
         [Paragraph.body
           (inlineTokensToRuns lexInline tokens ifuel
             (if tks.isEmpty then inlineTokensFromText lexInline txt else tks)
             false false)]
       | MdBlock.list items ordered =>
         listParas lexInline tokens ifuel lfuel items ordered
       | MdBlock.hr => [Paragraph.thematicBreak]
       | MdBlock.code txt =>
         (splitOnNl txt).map fun line => Paragraph.body [Run.text line false false]
       | MdBlock.space => []) ++ acc)
    []

/-! ## Statement-support definitions

Reconstruction maps, occurrence predicates and the formalized claim
statements themselves. -/

/-- The re-wrapped concatenation of raw segments: each text segment
contributes its literal text, each latex segment its content re-wrapped in
the delimiters that matched it. -/
def concatRewrapRaw (toks : List RawTok) : List Char :=
  (toks.map fun t =>
    match t with
    | RawTok.text _ txt => txt
    | RawTok.latex _ lx display =>
      if display then '$' :: '$' :: lx ++ ['$', '$'] else '$' :: lx ++ ['$']).foldr
    (· ++ ·) []

/-- The re-wrapped concatenation of converted tokens. -/
def concatRewrap (toks : List Token) : List Char :=
  (toks.map fun t =>
    match t with
    | Token.text _ txt => txt
    | Token.math _ lx display _ _ _ =>
      if display then '$' :: '$' :: lx ++ ['$', '$'] else '$' :: lx ++ ['$']).foldr
    (· ++ ·) []

/-- No suffix of `s` begins a math-span match: every dollar sign in `s`
opens an unterminated delimiter. -/
def noMathMatchAnywhere (s : List Char) : Bool :=
  s.tails.all fun t => (mathMatchAt t).isNone

/-- C2 as stated: any well-formed `$$X$$` (`X` non-empty, without `$$`)
occurring anywhere yields a display math token with content exactly `X`,
and any well-formed `$X$` (`X` non-empty, no newline, no `$`) occurring
anywhere yields an inline math token with content exactly `X`. -/
def ClaimC2 : Prop :=
  (∀ pre content post : List Char, content ≠ [] → ¬(['$', '$'] <:+: content) →
    ∃ id, RawTok.latex id content true ∈
      tokenize (pre ++ ['$', '$'] ++ content ++ ['$', '$'] ++ post)) ∧
  (∀ pre content post : List Char, content ≠ [] → '\n' ∉ content → '$' ∉ content →
    ∃ id, RawTok.latex id content false ∈
      tokenize (pre ++ ['$'] ++ content ++ ['$'] ++ post))

/-- C3 as stated, for a `$$` opener: when the remainder after a `$$` opener
contains no closing `$$`, the opener's dollar signs and all following text
survive literally inside a (final) text token. -/
def ClaimC3 : Prop :=
  ∀ pre rest : List Char, ¬(['$', '$'] <:+: rest) →
    ∃ toks id txt, tokenize (pre ++ ['$', '$'] ++ rest) = toks ++ [RawTok.text id txt] ∧
      (['$', '$'] ++ rest) <:+ txt

/-- C4 as stated: every input without `$` (including the empty input)
yields exactly one text token carrying the whole normalized input. -/
def ClaimC4 : Prop :=
  ∀ (kF tF : List Char → Bool → List Char) (oF : List Char → List Char)
    (s : List Char), '$' ∉ s →
    ∃ id, tokenizeAndConvert kF tF oF s =
      [Token.text id (normalizeAccentsToUnicode s)]

/-- C5 as stated: for every token sequence, markdown renderer and replacer,
the woven output contains no occurrence of any math token's placeholder. -/
def ClaimC5 : Prop :=
  ∀ (md : List Char → List Char) (tokens : List Token)
    (replacer : Token → List Char) (t : Token), t ∈ tokens → isMathTok t = true →
    ¬ (mathPlaceholder (tokenIdOf t) <:+:
        renderMarkdownWithPlaceholders md tokens replacer)

/-! ### Support for the weaver claim (C5) -/

/-- A decomposition of the rendered HTML into alternating literal segments
and placeholder occurrences: `inl` is a literal segment, `inr` a math
token whose placeholder stands at that spot. -/
def flattenPieces : List ((List Char) ⊕ Token) → List Char
  | [] => []
  | Sum.inl f :: ps => f ++ flattenPieces ps
  | Sum.inr t :: ps => mathPlaceholder (tokenIdOf t) ++ flattenPieces ps

/-- The math tokens of a decomposition, in order. -/
def piecesMath (ps : List ((List Char) ⊕ Token)) : List Token :=
  ps.filterMap fun p =>
    match p with
    | Sum.inl _ => none
    | Sum.inr t => some t

/-- A character that cannot contribute to a placeholder's marker text:
anything other than the five capitals of `MATHPH`. -/
def phSafeChar (c : Char) : Bool :=
  !(c = 'M' || c = 'A' || c = 'T' || c = 'H' || c = 'P')

/-- A string free of placeholder-marker capitals. -/
def phSafeStr (s : List Char) : Bool :=
  s.all phSafeChar

/-- A decomposition piece is safe when a literal segment has no
placeholder-marker capitals, and a placeholder piece has a marker-free
id. -/
def pieceSafe : (List Char) ⊕ Token → Prop
  | Sum.inl f => phSafeStr f = true
  | Sum.inr t => phSafeStr (tokenIdOf t) = true

/-- One weaving pass on the decomposition: the placeholder pieces carrying
the processed id become literal replacement segments. -/
def replacePiece (id r : List Char) (ps : List ((List Char) ⊕ Token)) :
    List ((List Char) ⊕ Token) :=
  ps.map fun p =>
    match p with
    | Sum.inl f => Sum.inl f
    | Sum.inr u => if tokenIdOf u = id then Sum.inl r else Sum.inr u

/-! ### Support for the normalizer claims (C9, C1, C4) -/

/-- No mapped accent match sits at the head of `s`. -/
def NoMappedAt (name : List Char) (table : Char → Option (List Char))
    (s : List Char) : Prop :=
  ∀ m l r, matchAccentAt name s = some (m, l, r) → table l = none

/-- No mapped accent match occurs anywhere in `s` (at the head of any
suffix). -/
def CleanStr (name : List Char) (table : Char → Option (List Char))
    (s : List Char) : Prop :=
  ∀ b, b <:+ s → NoMappedAt name table b

/-- A macro name consists of ASCII letters (true of hat, bar, tilde,
dot). -/
def goodName (name : List Char) : Prop :=
  ∀ c ∈ name, isAsciiLetter c = true

/-- A replacement string of an accent table: either one character that can
take part in no accent match and is no dollar sign, or a letter followed
by such a character (the combining-macron entries). -/
def safeRep (rep : List Char) : Prop :=
  (∃ c, rep = [c] ∧ isPatChar c = false ∧ c ≠ '$') ∨
  (∃ c c2, rep = [c, c2] ∧ isAsciiLetter c = true ∧ isPatChar c2 = false ∧
    c2 ≠ '$' ∧ c ≠ '$')

/-- All entries of an accent table are safe replacements. -/
def goodTable (table : Char → Option (List Char)) : Prop :=
  ∀ l rep, table l = some rep → safeRep rep

/-! ### Support for the list claim (C8) -/

/-- C8's wording as a function: one paragraph per item at the item's
nesting depth (the numbering level equals the depth), reference per the
list's ordered flag, recursing one level deeper into a nested list. -/
def listParasClaimSpec (lexInline : List Char → List MdInline)
    (tokens : List Token) (ifuel : Nat) :
    Nat → Nat → List (List Char × List MdBlock) → Bool → List Paragraph
  | 0, _, _, _ => []
  | fuel + 1, depth, items, ordered =>
    items.flatMap fun li =>
      Paragraph.listItem
        (inlineTokensToRuns lexInline tokens ifuel
          (inlineTokensFromText lexInline li.1) false false)
        (if ordered then numberedRef else bulletRef) depth ::
      (match findList li.2 with
       | some (subItems, subOrdered) =>
         listParasClaimSpec lexInline tokens ifuel fuel (depth + 1) subItems subOrdered
       | none => [])

/-- C8 as stated: the builder's list translation agrees with the
depth-accumulating wording, starting at depth 0. -/
def ClaimC8 : Prop :=
  ∀ (lexInline : List Char → List MdInline) (tokens : List Token)
    (ifuel fuel : Nat) (items : List (List Char × List MdBlock)) (ordered : Bool),
    listParas lexInline tokens ifuel fuel items ordered =
      listParasClaimSpec lexInline tokens ifuel fuel 0 items ordered

/-- The amended wording as a function: one paragraph per item, reference
per the list's ordered flag, always at numbering level 0, recursing into
the first nested list found among the item's block children. -/
def listParasAmendedSpec (lexInline : List Char → List MdInline)
    (tokens : List Token) (ifuel : Nat) :
    Nat → List (List Char × List MdBlock) → Bool → List Paragraph
  | 0, _, _ => []
  | fuel + 1, items, ordered =>
    items.flatMap fun li =>
      Paragraph.listItem
        (inlineTokensToRuns lexInline tokens ifuel
          (inlineTokensFromText lexInline li.1) false false)
        (if ordered then numberedRef else bulletRef) 0 ::
      (match findList li.2 with
       | some (subItems, subOrdered) =>
         listParasAmendedSpec lexInline tokens ifuel fuel subItems subOrdered
       | none => [])

/-! ## C6 — the two combined strings agree -/

/-- C6: for every token sequence, the combined placeholder string built by
the document builder (latexConverter.ts:160-162) is identical to the one
built by the markdown weaver (latexConverter.ts:108-114): same placeholder
per math id, block placeholders wrapped in blank lines, inline placeholders
bare, text tokens verbatim, joined in token order. -/
theorem generateDocx_combined_eq_weaver_combined (tokens : List Token) :
    combinedDocx tokens = combinedOfTokens tokens := rfl

/-! ## C8 — list paragraphs -/

/-- C8 as stated fails: numbering levels do not grow with nesting depth.
For a bullet list whose single item carries a nested list, the nested
item's paragraph is emitted at numbering level 0, where the claimed
depth-accumulating wording demands level 1. -/
theorem listParas_claim_counterexample : ¬ ClaimC8 := by
  intro h
  have h2 := h (fun s => [MdInline.text s]) [] 0 2
    [(['a'], [MdBlock.list [(['b'], [])] false])] false
  have h3 : listParas (fun s => [MdInline.text s]) [] 0 2
      [(['a'], [MdBlock.list [(['b'], [])] false])] false =
      [Paragraph.listItem [] bulletRef 0, Paragraph.listItem [] bulletRef 0] := by
    decide
  have h4 : listParasClaimSpec (fun s => [MdInline.text s]) [] 0 2 0
      [(['a'], [MdBlock.list [(['b'], [])] false])] false =
      [Paragraph.listItem [] bulletRef 0, Paragraph.listItem [] bulletRef 1] := by
    decide
  rw [h3, h4] at h2
  exact absurd h2 (by decide)

/-- C8 amended: the builder emits one paragraph per list item whose
numbering reference matches the item's own list's ordered flag, always at
numbering level 0 (the level does not grow with nesting), and recurses into
the first nested list found among an item's block children. -/
theorem listParas_eq_amendedSpec (lexInline : List Char → List MdInline)
    (tokens : List Token) (ifuel : Nat) :
    ∀ (fuel : Nat) (items : List (List Char × List MdBlock)) (ordered : Bool),
    listParas lexInline tokens ifuel fuel items ordered =
      listParasAmendedSpec lexInline tokens ifuel fuel items ordered := by
  intro fuel
  induction fuel with
  | zero => intro items ordered; rfl
  | succ n ih =>
    intro items ordered
    induction items with
    | nil => rfl
    | cons li rest ihr =>
      simp only [listParas, listParasAmendedSpec, List.foldr_cons, List.flatMap_cons] at *
      cases h : findList li.2 with
      | none => simpa [h] using ihr
      | some p =>
        obtain ⟨si, so⟩ := p
        simp only [h]
        rw [ih si so]
        simpa using ihr

/-! ## The accent matcher: shape and determinism -/

/-- A successful accent match decomposes the input: the matched span is the
backslash, the macro name, a run of whitespace and the braced letter, and
the input is the span followed by the rest. -/
theorem matchAccentAt_some {name s matched rest : List Char} {lt : Char}
    (h : matchAccentAt name s = some (matched, lt, rest)) :
    s = matched ++ rest ∧ ∃ ws, matched = '\\' :: (name ++ ws ++ ['{', lt, '}']) ∧
      (∀ c ∈ ws, isJsWhitespace c = true) ∧ isAsciiLetter lt = true := by
  unfold matchAccentAt at h
  split at h
  · rename_i t
    split at h
    · rename_i hpre
      split at h
      · rename_i l2 rest2 heq
        split at h
        · rename_i hl
          simp only [Option.some.injEq, Prod.mk.injEq] at h
          obtain ⟨h1, h2, h3⟩ := h
          subst h2 h3
          have hsplit : t = name ++ t.drop name.length := by
            have := List.isPrefixOf_iff_prefix.mp hpre
            exact (List.prefix_iff_eq_append.mp this).symm
          have hws := List.takeWhile_append_dropWhile isJsWhitespace (t.drop name.length)
          constructor
          · rw [← h1]
            calc '\\' :: t = '\\' :: (name ++ t.drop name.length) := by rw [← hsplit]
              _ = '\\' :: (name ++ ((t.drop name.length).takeWhile isJsWhitespace ++
                    (t.drop name.length).dropWhile isJsWhitespace)) := by rw [hws]
              _ = _ := by rw [heq]; simp
          · exact ⟨(t.drop name.length).takeWhile isJsWhitespace, by simpa using h1.symm,
              fun c hc => List.mem_takeWhile_imp hc, hl⟩
        · exact absurd h (by simp)
      · exact absurd h (by simp)
    · exact absurd h (by simp)
  · exact absurd h (by simp)

/-- The matcher's defining equation at a backslash head. -/
theorem matchAccentAt_cons_bs (name t : List Char) :
    matchAccentAt name ('\\' :: t) =
      (if name.isPrefixOf t then
        match (t.drop name.length).dropWhile isJsWhitespace with
        | '{' :: l :: '}' :: rest =>
          if isAsciiLetter l then
            some ('\\' :: name ++ (t.drop name.length).takeWhile isJsWhitespace ++
              ['{', l, '}'], l, rest)
          else none
        | _ => none
      else none) := rfl

/-- The matcher fails on any head other than a backslash. -/
theorem matchAccentAt_not_bs (name : List Char) (c : Char) (t : List Char)
    (h : c ≠ '\\') : matchAccentAt name (c :: t) = none := by
  unfold matchAccentAt
  split
  · rename_i heq
    injection heq with h1 h2
    exact absurd h1 h
  · rfl

/-- The matcher fails on the empty string. -/
theorem matchAccentAt_nil (name : List Char) : matchAccentAt name [] = none := rfl

/-- `takeWhile` of a whitespace run followed by a brace. -/
theorem takeWhile_ws_brace (ws rs : List Char) (hws : ∀ c ∈ ws, isJsWhitespace c = true) :
    (ws ++ '{' :: rs).takeWhile isJsWhitespace = ws := by
  induction ws with
  | nil => simp [List.takeWhile, show isJsWhitespace '{' = false from by decide]
  | cons c cs ih =>
    have hc : isJsWhitespace c = true := hws c (by simp)
    simp only [List.cons_append, List.takeWhile_cons, hc, if_true]
    rw [ih fun d hd => hws d (by simp [hd])]

/-- `dropWhile` of a whitespace run followed by a brace. -/
theorem dropWhile_ws_brace (ws rs : List Char) (hws : ∀ c ∈ ws, isJsWhitespace c = true) :
    (ws ++ '{' :: rs).dropWhile isJsWhitespace = '{' :: rs := by
  induction ws with
  | nil => simp [List.dropWhile, show isJsWhitespace '{' = false from by decide]
  | cons c cs ih =>
    have hc : isJsWhitespace c = true := hws c (by simp)
    simp only [List.cons_append, List.dropWhile_cons, hc, if_true]
    exact ih fun d hd => hws d (by simp [hd])

/-- Determinism of the matcher: a span of the matched shape matches, with
any continuation. -/
theorem matchAccentAt_build (name ws : List Char) (lt : Char) (r : List Char)
    (hws : ∀ c ∈ ws, isJsWhitespace c = true) (hl : isAsciiLetter lt = true) :
    matchAccentAt name ('\\' :: (name ++ ws ++ ['{', lt, '}']) ++ r) =
      some ('\\' :: (name ++ ws ++ ['{', lt, '}']), lt, r) := by
  have harg : '\\' :: (name ++ ws ++ ['{', lt, '}']) ++ r =
      '\\' :: (name ++ (ws ++ '{' :: (lt :: '}' :: r))) := by
    simp [List.append_assoc]
  rw [harg, matchAccentAt_cons_bs]
  have hpre : name.isPrefixOf (name ++ (ws ++ '{' :: (lt :: '}' :: r))) = true :=
    List.isPrefixOf_iff_prefix.mpr (List.prefix_append _ _)
  have hdrop : (name ++ (ws ++ '{' :: (lt :: '}' :: r))).drop name.length =
      ws ++ '{' :: (lt :: '}' :: r) := List.drop_left _ _
  simp only [hpre, if_true, hdrop]
  rw [dropWhile_ws_brace ws _ hws, takeWhile_ws_brace ws _ hws]
  simp [hl, List.append_assoc]

/-! ## List helpers -/

/-- A suffix of a concatenation is a suffix of the right part, or a
non-empty suffix of the left part followed by the whole right part. -/
theorem suffix_append_cases {α : Type} {b u v : List α} (h : b <:+ u ++ v) :
    b <:+ v ∨ ∃ u2, u2 <:+ u ∧ u2 ≠ [] ∧ b = u2 ++ v := by
  induction u with
  | nil => exact Or.inl (by simpa using h)
  | cons c u2 ih =>
    rw [List.cons_append] at h
    rcases List.suffix_cons_iff.mp h with h1 | h2
    · exact Or.inr ⟨c :: u2, List.suffix_refl _, by simp, by simpa using h1⟩
    · rcases ih h2 with h3 | ⟨u3, h3, h4, h5⟩
      · exact Or.inl h3
      · exact Or.inr ⟨u3, h3.trans (List.suffix_cons c u2), h4, h5⟩

/-! ## The replace pass: fuel, cleanliness, fixpoints -/

/-- `CleanStr` restricts to suffixes. -/
theorem CleanStr.mono {name : List Char} {table : Char → Option (List Char)}
    {s b : List Char} (h : CleanStr name table s) (hb : b <:+ s) :
    CleanStr name table b :=
  fun b2 hb2 => h b2 (hb2.trans hb)

/-- `CleanStr` restricts to infixes: a mapped match inside an infix
extends, by determinism of the matcher, to a mapped match inside the whole
string. -/
theorem CleanStr.of_infix {name : List Char} {table : Char → Option (List Char)}
    {y x : List Char} (h : CleanStr name table y) (hx : x <:+: y) :
    CleanStr name table x := by
  intro b hb m lt r hm
  obtain ⟨u, v, huv⟩ := hx
  obtain ⟨hsplit, ws, hshape, hws, hl⟩ := matchAccentAt_some hm
  obtain ⟨p, hp⟩ := hb
  have hbuild := matchAccentAt_build name ws lt (r ++ v) hws hl
  have hsuf : b ++ v <:+ y := ⟨u ++ p, by rw [← huv, ← hp]; simp [List.append_assoc]⟩
  have hmv : matchAccentAt name (b ++ v) = some (m, lt, r ++ v) := by
    rw [hsplit, hshape]
    simpa [List.append_assoc] using hbuild
  exact h (b ++ v) hsuf m lt (r ++ v) hmv

/-- Fuel irrelevance for the replace pass: any fuel at least the input
length computes the same result. -/
theorem replaceMacroGo_fuel (name : List Char) (table : Char → Option (List Char)) :
    ∀ (f1 : Nat) (s : List Char) (f2 : Nat), s.length ≤ f1 → s.length ≤ f2 →
      replaceMacroGo name table f1 s = replaceMacroGo name table f2 s := by
  intro f1
  induction f1 with
  | zero =>
    intro s f2 h1 h2
    cases s with
    | nil => cases f2 <;> rfl
    | cons c cs => simp at h1
  | succ n ih =>
    intro s f2 h1 h2
    cases s with
    | nil => cases f2 <;> rfl
    | cons c cs =>
      cases f2 with
      | zero => simp at h2
      | succ m =>
        cases hm : matchAccentAt name (c :: cs) with
        | none =>
          simp only [replaceMacroGo, hm]
          have hcs : cs.length ≤ n := by simp at h1; omega
          have hcs2 : cs.length ≤ m := by simp at h2; omega
          rw [ih cs m hcs hcs2]
        | some trip =>
          obtain ⟨matched, lt, rest⟩ := trip
          obtain ⟨hsplit, ws, hshape, _, _⟩ := matchAccentAt_some hm
          have hlen : (c :: cs).length = matched.length + rest.length := by
            rw [hsplit]; simp
          have hm1 : 1 ≤ matched.length := by rw [hshape]; simp
          have hr1 : rest.length ≤ n := by simp at h1 hlen; omega
          have hr2 : rest.length ≤ m := by simp at h2 hlen; omega
          simp only [replaceMacroGo, hm]
          cases table lt with
          | none => simp only; rw [ih rest m hr1 hr2]
          | some rep => simp only; rw [ih rest m hr1 hr2]

/-- A clean string is a fixpoint of the replace pass: every match the scan
meets is unmapped and is copied verbatim. -/
theorem replaceMacroGo_of_clean (name : List Char) (table : Char → Option (List Char)) :
    ∀ (fuel : Nat) (s : List Char), CleanStr name table s →
      replaceMacroGo name table fuel s = s := by
  intro fuel
  induction fuel with
  | zero => intro s h; cases s <;> rfl
  | succ n ih =>
    intro s h
    cases s with
    | nil => rfl
    | cons c cs =>
      cases hm : matchAccentAt name (c :: cs) with
      | none =>
        simp only [replaceMacroGo, hm]
        rw [ih cs (h.mono (List.suffix_cons c cs))]
      | some trip =>
        obtain ⟨matched, lt, rest⟩ := trip
        have hnone : table lt = none := h (c :: cs) (List.suffix_refl _) matched lt rest hm
        obtain ⟨hsplit, _, _, _, _⟩ := matchAccentAt_some hm
        simp only [replaceMacroGo, hm, hnone]
        rw [ih rest (h.mono ⟨matched, hsplit.symm⟩)]
        exact hsplit.symm

/-- The fixpoint property, stated for `replaceMacro`. -/
theorem replaceMacro_of_clean {name : List Char} {table : Char → Option (List Char)}
    {s : List Char} (h : CleanStr name table s) :
    replaceMacro name table s = s :=
  replaceMacroGo_of_clean name table s.length s h

/-! ## Matched spans: character classification -/

/-- Every character of a matched accent span is a pattern character. -/
theorem matchAccentAt_chars {name s matched rest : List Char} {lt : Char}
    (hg : goodName name) (h : matchAccentAt name s = some (matched, lt, rest)) :
    ∀ c ∈ matched, isPatChar c = true := by
  obtain ⟨_, ws, hshape, hws, hl⟩ := matchAccentAt_some h
  intro c hc
  rw [hshape] at hc
  rcases List.mem_cons.mp hc with hc1 | hc1
  · subst hc1; decide
  · rcases List.mem_append.mp hc1 with hc2 | hc2
    · rcases List.mem_append.mp hc2 with hc3 | hc3
      · simp [isPatChar, hg c hc3]
      · simp [isPatChar, hws c hc3]
    · simp only [List.mem_cons, List.not_mem_nil, or_false] at hc2
      rcases hc2 with hc3 | hc3 | hc3
      · subst hc3; decide
      · subst hc3; simp [isPatChar, hl]
      · subst hc3; decide

/-- A matched accent span ends in a closing brace. -/
theorem matchAccentAt_concat {name s matched rest : List Char} {lt : Char}
    (h : matchAccentAt name s = some (matched, lt, rest)) :
    ∃ pre0, matched = pre0 ++ ['}'] := by
  obtain ⟨_, ws, hshape, _, _⟩ := matchAccentAt_some h
  exact ⟨'\\' :: (name ++ ws ++ ['{', lt]), by rw [hshape]; simp⟩

/-- The first character of a matched span is a backslash. -/
theorem matchAccentAt_head {name s matched rest : List Char} {lt : Char}
    (h : matchAccentAt name s = some (matched, lt, rest)) :
    ∃ body, matched = '\\' :: body := by
  obtain ⟨_, ws, hshape, _, _⟩ := matchAccentAt_some h
  exact ⟨_, hshape⟩

/-- The backslash occurs in a matched span only as its first character: a
non-empty suffix of the span that begins with a backslash is the whole
span. -/
theorem matchAccentAt_suffix_bs {name s matched rest : List Char} {lt : Char}
    (hg : goodName name) (h : matchAccentAt name s = some (matched, lt, rest)) :
    ∀ m2, m2 <:+ matched → m2.head? = some '\\' → m2 = matched := by
  obtain ⟨_, ws, hshape, hws, hl⟩ := matchAccentAt_some h
  intro m2 hm2 hhead
  rw [hshape] at hm2 ⊢
  rcases List.suffix_cons_iff.mp hm2 with h1 | h1
  · exact h1
  · exfalso
    have hmem : '\\' ∈ m2 := by
      cases m2 with
      | nil => simp at hhead
      | cons d t2 =>
        simp only [List.head?_cons, Option.some.injEq] at hhead
        subst hhead; simp
    have hbs : '\\' ∈ name ++ ws ++ ['{', lt, '}'] := h1.subset hmem
    rcases List.mem_append.mp hbs with hc | hc
    · rcases List.mem_append.mp hc with hc2 | hc2
      · have := hg _ hc2; simp [isAsciiLetter] at this
      · have := hws _ hc2; simp [isJsWhitespace] at this
    · simp only [List.mem_cons, List.not_mem_nil, or_false] at hc
      rcases hc with hc2 | hc2 | hc2
      · exact absurd hc2 (by decide)
      · rw [← hc2] at hl; simp [isAsciiLetter] at hl
      · exact absurd hc2 (by decide)

/-- The seam lemma: with a safe replacement appended to a context whose
(non-empty) suffixes never start a mapped match against the original
continuation, no suffix of context-plus-replacement starts a mapped match
against any new continuation.  A match lying inside the context proper
transfers, by determinism of the matcher, to the original continuation; a
match reaching into the replacement would need a non-pattern character, or
would have to end in a letter where a matched span ends in a brace. -/
theorem rep_seam {name2 : List Char} {table2 : Char → Option (List Char)}
    {a s2 rep rest : List Char}
    (hg2 : goodName name2) (hrep : safeRep rep)
    (hyp : ∀ a2, a2 <:+ a → a2 ≠ [] → NoMappedAt name2 table2 (a2 ++ s2)) :
    ∀ a2, a2 <:+ a ++ rep → a2 ≠ [] → NoMappedAt name2 table2 (a2 ++ rest) := by
  intro a2 ha2 hne m2 l2 r2 hm2
  rcases suffix_append_cases ha2 with hsub | ⟨u2, hu2, hu2ne, heq⟩
  · exfalso
    obtain ⟨hsplit2, ws2, hshape2, _, _⟩ := matchAccentAt_some hm2
    have hhead : ∀ d t2, a2 = d :: t2 → d = '\\' := by
      intro d t2 hd
      rw [hd, hshape2] at hsplit2
      simp only [List.cons_append, List.cons.injEq] at hsplit2
      exact hsplit2.1
    rcases hrep with ⟨c, hc, hcp, _⟩ | ⟨c1, c2, hc, hc1l, hc2p, _, _⟩
    · subst hc
      have ha2c : a2 = [c] := by
        rcases List.suffix_cons_iff.mp hsub with h1 | h1
        · exact h1
        · exact absurd (List.suffix_nil.mp h1) hne
      have hcb := hhead c [] ha2c
      subst hcb
      simp [isPatChar] at hcp
    · subst hc
      rcases List.suffix_cons_iff.mp hsub with h1 | h1
      · have hcb := hhead c1 [c2] h1
        subst hcb
        simp [isAsciiLetter] at hc1l
      · rcases List.suffix_cons_iff.mp h1 with h2 | h2
        · have hcb := hhead c2 [] h2
          subst hcb
          simp [isPatChar] at hc2p
        · exact absurd (List.suffix_nil.mp h2) hne
  · subst heq
    obtain ⟨hsplit2, ws2, hshape2, hws2, hl2⟩ := matchAccentAt_some hm2
    by_cases hlen : m2.length ≤ u2.length
    · have hpre : m2 <+: u2 := by
        have h1 : m2 <+: u2 ++ (rep ++ rest) :=
          ⟨r2, by rw [← List.append_assoc, ← hsplit2]⟩
        exact (List.isPrefix_append_of_length hlen).mp h1
      obtain ⟨u3, hu3⟩ := hpre
      have hdet : matchAccentAt name2 (u2 ++ s2) = some (m2, l2, u3 ++ s2) := by
        rw [← hu3, hshape2]
        simpa [List.append_assoc] using
          matchAccentAt_build name2 ws2 l2 (u3 ++ s2) hws2 hl2
      exact hyp u2 hu2 hu2ne m2 l2 (u3 ++ s2) hdet
    · exfalso
      push_neg at hlen
      have hchars := matchAccentAt_chars hg2 hm2
      have hpre2 : u2 <+: m2 := by
        have h1 : u2 <+: m2 ++ r2 :=
          ⟨rep ++ rest, by rw [← hsplit2]; simp⟩
        exact (List.isPrefix_append_of_length (Nat.le_of_lt hlen)).mp h1
      obtain ⟨δ, hδ1⟩ := hpre2
      have hδ2 : rep ++ rest = δ ++ r2 := by
        have h2 : u2 ++ (rep ++ rest) = u2 ++ (δ ++ r2) := by
          rw [← List.append_assoc, hsplit2, ← hδ1, List.append_assoc]
        exact List.append_cancel_left h2
      have hδne : δ ≠ [] := by
        intro hd
        rw [hd, List.append_nil] at hδ1
        rw [← hδ1] at hlen
        exact lt_irrefl _ hlen
      rcases hrep with ⟨c, hc, hcp, _⟩ | ⟨c1, c2, hc, hc1l, hc2p, _, _⟩
      · subst hc
        cases δ with
        | nil => exact hδne rfl
        | cons d δ2 =>
          have hd : c = d := by
            simp only [List.cons_append, List.cons.injEq] at hδ2
            exact hδ2.1
          subst hd
          have hp : isPatChar c = true := hchars c (by rw [← hδ1]; simp)
          rw [hp] at hcp
          exact Bool.noConfusion hcp
      · subst hc
        cases δ with
        | nil => exact hδne rfl
        | cons d δ2 =>
          have hd : c1 = d := by
            simp only [List.cons_append, List.cons.injEq] at hδ2
            exact hδ2.1
          subst hd
          cases δ2 with
          | nil =>
            obtain ⟨pre0, hpre0⟩ := matchAccentAt_concat hm2
            have hform : u2 ++ [c1] = pre0 ++ ['}'] := by rw [hδ1, hpre0]
            have hlast : c1 = '}' := by
              have h1 := List.getLast?_concat (a := c1) u2
              rw [hform, List.getLast?_concat] at h1
              simpa using h1.symm
            subst hlast
            simp [isAsciiLetter] at hc1l
          | cons e δ3 =>
            have he : c2 = e := by
              simp only [List.cons_append, List.cons.injEq] at hδ2
              exact hδ2.2.1
            subst he
            have hp : isPatChar c2 = true := hchars c2 (by rw [← hδ1]; simp)
            rw [hp] at hc2p
            exact Bool.noConfusion hc2p

/-- Appending on the right preserves the suffix relation. -/
theorem suffix_append_both {α : Type} {a2 a t : List α} (h : a2 <:+ a) :
    a2 ++ t <:+ a ++ t := by
  obtain ⟨p, hp⟩ := h
  exact ⟨p, by rw [← hp, List.append_assoc]⟩

/-- The replace pass on the empty string. -/
theorem replaceMacroGo_nil (name : List Char) (table : Char → Option (List Char))
    (fuel : Nat) : replaceMacroGo name table fuel [] = [] := by
  cases fuel <;> rfl

/-- The empty string is clean. -/
theorem cleanStr_nil (name : List Char) (table : Char → Option (List Char)) :
    CleanStr name table [] := by
  intro b hb m lt r hm
  rw [List.suffix_nil.mp hb, matchAccentAt_nil] at hm
  exact Option.noConfusion hm

/-- The master invariant of one replace pass, for its own macro: if no
suffix of the already-scanned context `a` starts a mapped match against
the pending input `s`, then after the pass neither the context nor the
output contains a mapped-match start.  In particular the output of a pass
is clean for that pass's own macro. -/
theorem replaceMacroGo_self_clean (name : List Char) (table : Char → Option (List Char))
    (hg : goodName name) (ht : goodTable table) :
    ∀ (fuel : Nat) (s a : List Char), s.length ≤ fuel →
      (∀ a2, a2 <:+ a → a2 ≠ [] → NoMappedAt name table (a2 ++ s)) →
      (∀ a2, a2 <:+ a → a2 ≠ [] →
        NoMappedAt name table (a2 ++ replaceMacroGo name table fuel s)) ∧
      CleanStr name table (replaceMacroGo name table fuel s) := by
  intro fuel
  induction fuel with
  | zero =>
    intro s a hlen hyp
    have hs : s = [] := List.eq_nil_of_length_eq_zero (Nat.le_zero.mp hlen)
    subst hs
    rw [replaceMacroGo_nil]
    exact ⟨fun a2 ha2 hne => by simpa using hyp a2 ha2 hne, cleanStr_nil name table⟩
  | succ n ih =>
    intro s a hlen hyp
    cases s with
    | nil =>
      rw [replaceMacroGo_nil]
      exact ⟨fun a2 ha2 hne => by simpa using hyp a2 ha2 hne, cleanStr_nil name table⟩
    | cons c cs =>
      cases hm : matchAccentAt name (c :: cs) with
      | none =>
        have hgo : replaceMacroGo name table (n + 1) (c :: cs) =
            c :: replaceMacroGo name table n cs := by
          simp only [replaceMacroGo, hm]
        have hyp2 : ∀ a2, a2 <:+ a ++ [c] → a2 ≠ [] → NoMappedAt name table (a2 ++ cs) := by
          intro a2 ha2 hne
          rcases suffix_append_cases ha2 with hsub | ⟨u2, hu2, hu2ne, heq⟩
          · have ha2c : a2 = [c] := by
              rcases List.suffix_cons_iff.mp hsub with h1 | h1
              · exact h1
              · exact absurd (List.suffix_nil.mp h1) hne
            subst ha2c
            intro m2 l2 r2 hm2
            simp only [List.singleton_append] at hm2
            exact Option.noConfusion (hm.symm.trans hm2)
          · subst heq
            have heq2 : (u2 ++ [c]) ++ cs = u2 ++ (c :: cs) := by simp
            rw [heq2]
            exact hyp u2 hu2 hu2ne
        obtain ⟨ihA, ihB⟩ := ih cs (a ++ [c])
          (by simp only [List.length_cons] at hlen; omega) hyp2
        rw [hgo]
        constructor
        · intro a2 ha2 hne
          have heq2 : a2 ++ (c :: replaceMacroGo name table n cs) =
              (a2 ++ [c]) ++ replaceMacroGo name table n cs := by simp
          rw [heq2]
          exact ihA (a2 ++ [c]) (suffix_append_both ha2) (by simp)
        · intro b hb
          rcases List.suffix_cons_iff.mp hb with h1 | h1
          · rw [h1]
            have heq2 : c :: replaceMacroGo name table n cs =
                [c] ++ replaceMacroGo name table n cs := rfl
            rw [heq2]
            exact ihA [c] ⟨a, rfl⟩ (by simp)
          · exact ihB b h1
      | some trip =>
        obtain ⟨matched, lt, rest⟩ := trip
        obtain ⟨hsplit, ws, hshape, hws, hl⟩ := matchAccentAt_some hm
        have hmne : matched ≠ [] := by rw [hshape]; simp
        have hrlen : rest.length ≤ n := by
          have h1 : (c :: cs).length = matched.length + rest.length := by
            rw [hsplit]; simp
          have h2 : 1 ≤ matched.length := by rw [hshape]; simp
          simp only [List.length_cons] at h1 hlen
          omega
        cases htab : table lt with
        | none =>
          have hgo : replaceMacroGo name table (n + 1) (c :: cs) =
              matched ++ replaceMacroGo name table n rest := by
            simp only [replaceMacroGo, hm, htab]
          have hyp2 : ∀ a2, a2 <:+ a ++ matched → a2 ≠ [] →
              NoMappedAt name table (a2 ++ rest) := by
            intro a2 ha2 hne
            rcases suffix_append_cases ha2 with hsub | ⟨u2, hu2, hu2ne, heq⟩
            · intro m2 l2 r2 hm2
              obtain ⟨body2, hbody2⟩ := matchAccentAt_head hm2
              obtain ⟨hsplit2, _, _, _, _⟩ := matchAccentAt_some hm2
              have hhead : a2.head? = some '\\' := by
                cases a2 with
                | nil => exact absurd rfl hne
                | cons d t2 =>
                  rw [hbody2] at hsplit2
                  simp only [List.cons_append, List.cons.injEq] at hsplit2
                  rw [hsplit2.1]; rfl
              have ha2m : a2 = matched := matchAccentAt_suffix_bs hg hm a2 hsub hhead
              subst ha2m
              rw [← hsplit] at hm2
              have h3 := hm.symm.trans hm2
              simp only [Option.some.injEq, Prod.mk.injEq] at h3
              rw [← h3.2.1]
              exact htab
            · subst heq
              have heq2 : (u2 ++ matched) ++ rest = u2 ++ (c :: cs) := by
                rw [List.append_assoc, ← hsplit]
              rw [heq2]
              exact hyp u2 hu2 hu2ne
          obtain ⟨ihA, ihB⟩ := ih rest (a ++ matched) hrlen hyp2
          rw [hgo]
          constructor
          · intro a2 ha2 hne
            have heq2 : a2 ++ (matched ++ replaceMacroGo name table n rest) =
                (a2 ++ matched) ++ replaceMacroGo name table n rest := by simp
            rw [heq2]
            exact ihA (a2 ++ matched) (suffix_append_both ha2) (by simp [hmne])
          · intro b hb
            rcases suffix_append_cases hb with h1 | ⟨m2, hm2s, hm2ne, heq⟩
            · exact ihB b h1
            · subst heq
              exact ihA m2 (hm2s.trans ⟨a, rfl⟩) hm2ne
        | some rep =>
          have hgo : replaceMacroGo name table (n + 1) (c :: cs) =
              rep ++ replaceMacroGo name table n rest := by
            simp only [replaceMacroGo, hm, htab]
          have hyp2 : ∀ a2, a2 <:+ a ++ rep → a2 ≠ [] →
              NoMappedAt name table (a2 ++ rest) :=
            rep_seam hg (ht lt rep htab) hyp
          obtain ⟨ihA, ihB⟩ := ih rest (a ++ rep) hrlen hyp2
          rw [hgo]
          constructor
          · intro a2 ha2 hne
            have heq2 : a2 ++ (rep ++ replaceMacroGo name table n rest) =
                (a2 ++ rep) ++ replaceMacroGo name table n rest := by simp
            rw [heq2]
            exact ihA (a2 ++ rep) (suffix_append_both ha2)
              (by simp [hne])
          · intro b hb
            rcases suffix_append_cases hb with h1 | ⟨rep2, hreps, hrepne, heq⟩
            · exact ihB b h1
            · subst heq
              exact ihA rep2 (hreps.trans ⟨a, rfl⟩) hrepne

/-- The master invariant of one replace pass, observed through another
macro: a pass for `name`/`table` preserves cleanliness with respect to any
macro `name2`/`table2`.  Copied spans keep their matches inside the
original string; replacements cannot take part in any match. -/
theorem replaceMacroGo_cross_clean (name : List Char) (table : Char → Option (List Char))
    (name2 : List Char) (table2 : Char → Option (List Char))
    (hg2 : goodName name2) (ht : goodTable table) :
    ∀ (fuel : Nat) (s a : List Char), s.length ≤ fuel →
      (∀ a2, a2 <:+ a → a2 ≠ [] → NoMappedAt name2 table2 (a2 ++ s)) →
      CleanStr name2 table2 s →
      (∀ a2, a2 <:+ a → a2 ≠ [] →
        NoMappedAt name2 table2 (a2 ++ replaceMacroGo name table fuel s)) ∧
      CleanStr name2 table2 (replaceMacroGo name table fuel s) := by
  intro fuel
  induction fuel with
  | zero =>
    intro s a hlen hyp hclean
    have hs : s = [] := List.eq_nil_of_length_eq_zero (Nat.le_zero.mp hlen)
    subst hs
    rw [replaceMacroGo_nil]
    exact ⟨fun a2 ha2 hne => by simpa using hyp a2 ha2 hne, cleanStr_nil name2 table2⟩
  | succ n ih =>
    intro s a hlen hyp hclean
    cases s with
    | nil =>
      rw [replaceMacroGo_nil]
      exact ⟨fun a2 ha2 hne => by simpa using hyp a2 ha2 hne, cleanStr_nil name2 table2⟩
    | cons c cs =>
      cases hm : matchAccentAt name (c :: cs) with
      | none =>
        have hgo : replaceMacroGo name table (n + 1) (c :: cs) =
            c :: replaceMacroGo name table n cs := by
          simp only [replaceMacroGo, hm]
        have hyp2 : ∀ a2, a2 <:+ a ++ [c] → a2 ≠ [] →
            NoMappedAt name2 table2 (a2 ++ cs) := by
          intro a2 ha2 hne
          rcases suffix_append_cases ha2 with hsub | ⟨u2, hu2, hu2ne, heq⟩
          · have ha2c : a2 = [c] := by
              rcases List.suffix_cons_iff.mp hsub with h1 | h1
              · exact h1
              · exact absurd (List.suffix_nil.mp h1) hne
            subst ha2c
            have heq2 : [c] ++ cs = c :: cs := rfl
            rw [heq2]
            exact hclean (c :: cs) (List.suffix_refl _)
          · subst heq
            have heq2 : (u2 ++ [c]) ++ cs = u2 ++ (c :: cs) := by simp
            rw [heq2]
            exact hyp u2 hu2 hu2ne
        obtain ⟨ihA, ihB⟩ := ih cs (a ++ [c])
          (by simp only [List.length_cons] at hlen; omega) hyp2
          (hclean.mono (List.suffix_cons c cs))
        rw [hgo]
        constructor
        · intro a2 ha2 hne
          have heq2 : a2 ++ (c :: replaceMacroGo name table n cs) =
              (a2 ++ [c]) ++ replaceMacroGo name table n cs := by simp
          rw [heq2]
          exact ihA (a2 ++ [c]) (suffix_append_both ha2) (by simp)
        · intro b hb
          rcases List.suffix_cons_iff.mp hb with h1 | h1
          · rw [h1]
            have heq2 : c :: replaceMacroGo name table n cs =
                [c] ++ replaceMacroGo name table n cs := rfl
            rw [heq2]
            exact ihA [c] ⟨a, rfl⟩ (by simp)
          · exact ihB b h1
      | some trip =>
        obtain ⟨matched, lt, rest⟩ := trip
        obtain ⟨hsplit, ws, hshape, hws, hl⟩ := matchAccentAt_some hm
        have hmne : matched ≠ [] := by rw [hshape]; simp
        have hrest : rest <:+ c :: cs := ⟨matched, hsplit.symm⟩
        have hrlen : rest.length ≤ n := by
          have h1 : (c :: cs).length = matched.length + rest.length := by
            rw [hsplit]; simp
          have h2 : 1 ≤ matched.length := by rw [hshape]; simp
          simp only [List.length_cons] at h1 hlen
          omega
        cases htab : table lt with
        | none =>
          have hgo : replaceMacroGo name table (n + 1) (c :: cs) =
              matched ++ replaceMacroGo name table n rest := by
            simp only [replaceMacroGo, hm, htab]
          have hyp2 : ∀ a2, a2 <:+ a ++ matched → a2 ≠ [] →
              NoMappedAt name2 table2 (a2 ++ rest) := by
            intro a2 ha2 hne
            rcases suffix_append_cases ha2 with hsub | ⟨u2, hu2, hu2ne, heq⟩
            · obtain ⟨p, hp⟩ := hsub
              have hsuf : a2 ++ rest <:+ c :: cs :=
                ⟨p, by rw [hsplit, ← hp, List.append_assoc]⟩
              exact hclean (a2 ++ rest) hsuf
            · subst heq
              have heq2 : (u2 ++ matched) ++ rest = u2 ++ (c :: cs) := by
                rw [List.append_assoc, ← hsplit]
              rw [heq2]
              exact hyp u2 hu2 hu2ne
          obtain ⟨ihA, ihB⟩ := ih rest (a ++ matched) hrlen hyp2 (hclean.mono hrest)
          rw [hgo]
          constructor
          · intro a2 ha2 hne
            have heq2 : a2 ++ (matched ++ replaceMacroGo name table n rest) =
                (a2 ++ matched) ++ replaceMacroGo name table n rest := by simp
            rw [heq2]
            exact ihA (a2 ++ matched) (suffix_append_both ha2) (by simp [hmne])
          · intro b hb
            rcases suffix_append_cases hb with h1 | ⟨m2, hm2s, hm2ne, heq⟩
            · exact ihB b h1
            · subst heq
              exact ihA m2 (hm2s.trans ⟨a, rfl⟩) hm2ne
        | some rep =>
          have hgo : replaceMacroGo name table (n + 1) (c :: cs) =
              rep ++ replaceMacroGo name table n rest := by
            simp only [replaceMacroGo, hm, htab]
          have hyp2 : ∀ a2, a2 <:+ a ++ rep → a2 ≠ [] →
              NoMappedAt name2 table2 (a2 ++ rest) :=
            rep_seam hg2 (ht lt rep htab) hyp
          obtain ⟨ihA, ihB⟩ := ih rest (a ++ rep) hrlen hyp2 (hclean.mono hrest)
          rw [hgo]
          constructor
          · intro a2 ha2 hne
            have heq2 : a2 ++ (rep ++ replaceMacroGo name table n rest) =
                (a2 ++ rep) ++ replaceMacroGo name table n rest := by simp
            rw [heq2]
            exact ihA (a2 ++ rep) (suffix_append_both ha2) (by simp [hne])
          · intro b hb
            rcases suffix_append_cases hb with h1 | ⟨rep2, hreps, hrepne, heq⟩
            · exact ihB b h1
            · subst heq
              exact ihA rep2 (hreps.trans ⟨a, rfl⟩) hrepne

/-- The output of a pass is clean for its own macro: no mapped match of
the pass's pattern survives the pass. -/
theorem replaceMacro_self_clean (name : List Char) (table : Char → Option (List Char))
    (hg : goodName name) (ht : goodTable table) (s : List Char) :
    CleanStr name table (replaceMacro name table s) :=
  (replaceMacroGo_self_clean name table hg ht s.length s [] (Nat.le_refl _)
    (fun a2 ha2 hne => absurd (List.suffix_nil.mp ha2) hne)).2

/-- A pass for one macro preserves cleanliness for any macro. -/
theorem replaceMacro_cross_clean (name : List Char) (table : Char → Option (List Char))
    (name2 : List Char) (table2 : Char → Option (List Char))
    (hg2 : goodName name2) (ht : goodTable table)
    {s : List Char} (hclean : CleanStr name2 table2 s) :
    CleanStr name2 table2 (replaceMacro name table s) :=
  (replaceMacroGo_cross_clean name table name2 table2 hg2 ht s.length s []
    (Nat.le_refl _) (fun a2 ha2 hne => absurd (List.suffix_nil.mp ha2) hne) hclean).2

/-! ## The four macros are well-behaved -/

/-- The hat table only holds safe replacements. -/
theorem hatTable_good : goodTable hatTable := by
  intro l rep h
  unfold hatTable at h
  split at h <;>
    first
      | exact Option.noConfusion h
      | (injection h with h2; subst h2;
         exact Or.inl ⟨_, rfl, by decide, by decide⟩)

/-- The bar table only holds safe replacements (the `x`/`X` entries are a
letter followed by a combining macron). -/
theorem barTable_good : goodTable barTable := by
  intro l rep h
  unfold barTable at h
  split at h <;>
    first
      | exact Option.noConfusion h
      | (injection h with h2; subst h2;
         exact Or.inl ⟨_, rfl, by decide, by decide⟩)
      | (injection h with h2; subst h2;
         exact Or.inr ⟨_, _, rfl, by decide, by decide, by decide, by decide⟩)

/-- The tilde table only holds safe replacements. -/
theorem tildeTable_good : goodTable tildeTable := by
  intro l rep h
  unfold tildeTable at h
  split at h <;>
    first
      | exact Option.noConfusion h
      | (injection h with h2; subst h2;
         exact Or.inl ⟨_, rfl, by decide, by decide⟩)

/-- The dot table only holds safe replacements. -/
theorem dotTable_good : goodTable dotTable := by
  intro l rep h
  unfold dotTable at h
  split at h <;>
    first
      | exact Option.noConfusion h
      | (injection h with h2; subst h2;
         exact Or.inl ⟨_, rfl, by decide, by decide⟩)

/-- The four macro names are ASCII-letter words. -/
theorem goodName_hat : goodName ['h', 'a', 't'] := by
  unfold goodName; decide

/-- The bar name is an ASCII-letter word. -/
theorem goodName_bar : goodName ['b', 'a', 'r'] := by
  unfold goodName; decide

/-- The tilde name is an ASCII-letter word. -/
theorem goodName_tilde : goodName ['t', 'i', 'l', 'd', 'e'] := by
  unfold goodName; decide

/-- The dot name is an ASCII-letter word. -/
theorem goodName_dot : goodName ['d', 'o', 't'] := by
  unfold goodName; decide

/-! ## C9 — the normalizer is idempotent -/

/-- After the four passes, no mapped match of any of the four macros
remains anywhere in the output. -/
theorem normalize_clean_all (s : List Char) :
    CleanStr ['h', 'a', 't'] hatTable (normalizeAccentsToUnicode s) ∧
    CleanStr ['b', 'a', 'r'] barTable (normalizeAccentsToUnicode s) ∧
    CleanStr ['t', 'i', 'l', 'd', 'e'] tildeTable (normalizeAccentsToUnicode s) ∧
    CleanStr ['d', 'o', 't'] dotTable (normalizeAccentsToUnicode s) := by
  unfold normalizeAccentsToUnicode
  refine ⟨?_, ?_, ?_, ?_⟩
  · exact replaceMacro_cross_clean _ dotTable _ _ goodName_hat dotTable_good
      (replaceMacro_cross_clean _ tildeTable _ _ goodName_hat tildeTable_good
        (replaceMacro_cross_clean _ barTable _ _ goodName_hat barTable_good
          (replaceMacro_self_clean _ hatTable goodName_hat hatTable_good s)))
  · exact replaceMacro_cross_clean _ dotTable _ _ goodName_bar dotTable_good
      (replaceMacro_cross_clean _ tildeTable _ _ goodName_bar tildeTable_good
        (replaceMacro_self_clean _ barTable goodName_bar barTable_good _))
  · exact replaceMacro_cross_clean _ dotTable _ _ goodName_tilde dotTable_good
      (replaceMacro_self_clean _ tildeTable goodName_tilde tildeTable_good _)
  · exact replaceMacro_self_clean _ dotTable goodName_dot dotTable_good _

/-- Any string all four macros see as clean is a fixpoint of the full
normalizer. -/
theorem normalize_of_clean {x : List Char}
    (h1 : CleanStr ['h', 'a', 't'] hatTable x)
    (h2 : CleanStr ['b', 'a', 'r'] barTable x)
    (h3 : CleanStr ['t', 'i', 'l', 'd', 'e'] tildeTable x)
    (h4 : CleanStr ['d', 'o', 't'] dotTable x) :
    normalizeAccentsToUnicode x = x := by
  show replaceMacro ['d', 'o', 't'] dotTable
    (replaceMacro ['t', 'i', 'l', 'd', 'e'] tildeTable
      (replaceMacro ['b', 'a', 'r'] barTable
        (replaceMacro ['h', 'a', 't'] hatTable x))) = x
  rw [replaceMacro_of_clean h1, replaceMacro_of_clean h2,
    replaceMacro_of_clean h3, replaceMacro_of_clean h4]

/-- C9: accent normalization is idempotent — applying
`normalizeAccentsToUnicode` (latexConverter.ts:42-50) twice gives the same
result as applying it once, for every input string. -/
theorem normalizeAccentsToUnicode_idempotent (s : List Char) :
    normalizeAccentsToUnicode (normalizeAccentsToUnicode s) =
      normalizeAccentsToUnicode s := by
  obtain ⟨h1, h2, h3, h4⟩ := normalize_clean_all s
  exact normalize_of_clean h1 h2 h3 h4

/-- An infix of a normalized string is itself a fixpoint of the
normalizer (the second normalization of a math span's content inside
`tokenizeAndConvert` changes nothing). -/
theorem normalize_fix_of_within {x s : List Char}
    (hx : x <:+: normalizeAccentsToUnicode s) :
    normalizeAccentsToUnicode x = x := by
  obtain ⟨h1, h2, h3, h4⟩ := normalize_clean_all s
  exact normalize_of_clean (h1.of_infix hx) (h2.of_infix hx) (h3.of_infix hx)
    (h4.of_infix hx)

/-! ## The segmenter: matcher equations -/

/-- No math match starts at a character other than a dollar sign (block
alternative). -/
theorem blockMatchAt_not_ds (c : Char) (cs : List Char) (h : c ≠ '$') :
    blockMatchAt (c :: cs) = none := by
  unfold blockMatchAt
  split
  · rename_i heq
    injection heq with h1 h2
    exact absurd h1 h
  · rfl

/-- No math match starts at a character other than a dollar sign (inline
alternative). -/
theorem inlineMatchAt_not_ds (c : Char) (cs : List Char) (h : c ≠ '$') :
    inlineMatchAt (c :: cs) = none := by
  unfold inlineMatchAt
  split
  · rename_i heq
    injection heq with h1 h2
    exact absurd h1 h
  · rfl

/-- No math match starts at a character other than a dollar sign. -/
theorem mathMatchAt_none_of_head (c : Char) (cs : List Char) (h : c ≠ '$') :
    mathMatchAt (c :: cs) = none := by
  simp only [mathMatchAt, blockMatchAt_not_ds c cs h, inlineMatchAt_not_ds c cs h]

/-- No math match starts at the end of the input. -/
theorem mathMatchAt_nil : mathMatchAt [] = none := rfl

/-- The `$$` search walks over a non-dollar head. -/
theorem findDollarDollar_cons_ne (c : Char) (rest : List Char) (h : c ≠ '$') :
    findDollarDollar (c :: rest) =
      (findDollarDollar rest).map (fun p => (c :: p.1, p.2)) := by
  conv_lhs => unfold findDollarDollar
  rw [if_neg (fun hand => h hand.1)]

/-- The `$$` search walks over a lone dollar not followed by another. -/
theorem findDollarDollar_ds_cons_ne (c2 : Char) (rest : List Char) (h : c2 ≠ '$') :
    findDollarDollar ('$' :: c2 :: rest) =
      (findDollarDollar (c2 :: rest)).map (fun p => ('$' :: p.1, p.2)) := by
  conv_lhs => unfold findDollarDollar
  rw [if_neg (fun hand => h (by simpa using hand.2))]

/-- The `$$` search finds the first double dollar. -/
theorem findDollarDollar_eq : ∀ (u v : List Char), ¬(['$', '$'] <:+: (u ++ ['$'])) →
    findDollarDollar (u ++ '$' :: '$' :: v) = some (u, v) := by
  intro u
  induction u with
  | nil => intro v h; rfl
  | cons c u2 ih =>
    intro v h
    by_cases hc : c = '$'
    · subst hc
      cases u2 with
      | nil => exact absurd ⟨[], [], by simp⟩ h
      | cons c2 u3 =>
        by_cases hc2 : c2 = '$'
        · subst hc2
          exact absurd ⟨[], u3 ++ ['$'], by simp⟩ h
        · rw [show ('$' :: c2 :: u3) ++ '$' :: '$' :: v =
            '$' :: c2 :: (u3 ++ '$' :: '$' :: v) from rfl]
          rw [findDollarDollar_ds_cons_ne c2 _ hc2]
          rw [show c2 :: (u3 ++ '$' :: '$' :: v) = (c2 :: u3) ++ '$' :: '$' :: v from rfl]
          rw [ih v (fun hin => h (by simpa using List.infix_cons hin))]
          rfl
    · rw [show (c :: u2) ++ '$' :: '$' :: v = c :: (u2 ++ '$' :: '$' :: v) from rfl]
      rw [findDollarDollar_cons_ne c _ hc]
      rw [ih v (fun hin => h (by simpa using List.infix_cons hin))]
      rfl

/-- The block alternative matches a well-delimited block span whose
content cannot close early. -/
theorem blockMatchAt_eq (c0 : Char) (ctail post : List Char)
    (h : ¬(['$', '$'] <:+: (ctail ++ ['$']))) :
    blockMatchAt ('$' :: '$' :: c0 :: (ctail ++ '$' :: '$' :: post)) =
      some (c0 :: ctail, post) := by
  show (findDollarDollar (ctail ++ '$' :: '$' :: post)).map
      (fun p => (c0 :: p.1, p.2)) = _
  rw [findDollarDollar_eq ctail post h]
  rfl

/-- The block alternative of the combined matcher. -/
theorem mathMatchAt_block_eq (c0 : Char) (ctail post : List Char)
    (h : ¬(['$', '$'] <:+: (ctail ++ ['$']))) :
    mathMatchAt ('$' :: '$' :: c0 :: (ctail ++ '$' :: '$' :: post)) =
      some (c0 :: ctail, true, post) := by
  simp only [mathMatchAt, blockMatchAt_eq c0 ctail post h]

/-- The closing-dollar scan of the inline alternative. -/
theorem inlineCont_eq (content post : List Char)
    (hc : ∀ c ∈ content, c ≠ '$' ∧ c ≠ '\n') :
    inlineCont (content ++ '$' :: post) = some (content, post) := by
  induction content with
  | nil => simp [inlineCont]
  | cons c cs ih =>
    obtain ⟨h1, h2⟩ := hc c (by simp)
    rw [show (c :: cs) ++ '$' :: post = c :: (cs ++ '$' :: post) from rfl]
    unfold inlineCont
    rw [if_neg h1, if_neg h2, ih (fun d hd => hc d (by simp [hd]))]
    rfl

/-- The inline alternative matches a well-delimited inline span. -/
theorem inlineMatchAt_eq (c0 : Char) (cs post : List Char)
    (h0 : c0 ≠ '$' ∧ c0 ≠ '\n') (hc : ∀ c ∈ cs, c ≠ '$' ∧ c ≠ '\n') :
    inlineMatchAt ('$' :: c0 :: (cs ++ '$' :: post)) = some (c0 :: cs, post) := by
  show (if c0 = '$' || c0 = '\n' then none
    else (inlineCont (cs ++ '$' :: post)).map (fun p => (c0 :: p.1, p.2))) = _
  rw [if_neg (by simp [h0.1, h0.2]), inlineCont_eq cs post hc]
  rfl

/-- The inline alternative of the combined matcher (the block alternative
fails because the content cannot begin with a dollar). -/
theorem mathMatchAt_inline_eq (c0 : Char) (cs post : List Char)
    (h0 : c0 ≠ '$' ∧ c0 ≠ '\n') (hc : ∀ c ∈ cs, c ≠ '$' ∧ c ≠ '\n') :
    mathMatchAt ('$' :: c0 :: (cs ++ '$' :: post)) = some (c0 :: cs, false, post) := by
  have hb : blockMatchAt ('$' :: c0 :: (cs ++ '$' :: post)) = none := by
    unfold blockMatchAt
    split
    · rename_i heq
      injection heq with h1 h2
      injection h2 with h3 h4
      exact absurd h3 h0.1
    · rfl
  simp only [mathMatchAt, hb, inlineMatchAt_eq c0 cs post h0 hc]

/-! ## The segmenter: scan lemmas -/

/-- The scan equation at a matching position. -/
theorem tokenizeGo_cons_match {c : Char} {cs content rest : List Char}
    {isBlock : Bool} (fuel : Nat) (pending : List Char) (i : Nat)
    (h : mathMatchAt (c :: cs) = some (content, isBlock, rest)) :
    tokenizeGo (fuel + 1) (c :: cs) pending i =
      (if pending = [] then [] else [RawTok.text (tokenId 't' i) pending.reverse]) ++
      RawTok.latex (tokenId 'm' (if pending = [] then i else i + 1)) content isBlock ::
      tokenizeGo fuel rest [] ((if pending = [] then i else i + 1) + 1) := by
  simp only [tokenizeGo, h]

/-- The scan equation at a non-matching position. -/
theorem tokenizeGo_cons_nomatch {c : Char} {cs : List Char}
    (fuel : Nat) (pending : List Char) (i : Nat)
    (h : mathMatchAt (c :: cs) = none) :
    tokenizeGo (fuel + 1) (c :: cs) pending i =
      tokenizeGo fuel cs (c :: pending) i := by
  simp only [tokenizeGo, h]

/-- The scan walks through a dollar-free prefix, accumulating it as
pending text. -/
theorem tokenizeGo_nodollar : ∀ (pre : List Char) (fuel : Nat)
    (s pending : List Char) (i : Nat), (∀ c ∈ pre, c ≠ '$') →
    tokenizeGo (pre.length + fuel) (pre ++ s) pending i =
      tokenizeGo fuel s (pre.reverse ++ pending) i := by
  intro pre
  induction pre with
  | nil => intro fuel s pending i h; simp
  | cons c pre2 ih =>
    intro fuel s pending i h
    have hc : c ≠ '$' := h c (by simp)
    have hstep : (c :: pre2).length + fuel = (pre2.length + fuel) + 1 := by
      simp only [List.length_cons]; omega
    rw [hstep, show (c :: pre2) ++ s = c :: (pre2 ++ s) from rfl,
      tokenizeGo_cons_nomatch _ _ _ (mathMatchAt_none_of_head _ _ hc),
      ih fuel s (c :: pending) i (fun d hd => h d (by simp [hd]))]
    congr 1
    simp

/-- An early-closing double dollar inside `ctail ++ ['$']` would
contradict the content conditions of a well-formed block span. -/
theorem block_content_aux (c0 : Char) (ctail : List Char)
    (hinsd : ¬(['$', '$'] <:+: (c0 :: ctail)))
    (hlast : (c0 :: ctail).getLast? ≠ some '$') :
    ¬(['$', '$'] <:+: (ctail ++ ['$'])) := by
  intro hin
  obtain ⟨u, v, huv⟩ := hin
  rcases List.eq_nil_or_concat v with hv | ⟨v2, a, hv⟩
  · subst hv
    rw [List.append_nil] at huv
    have h1 : (u ++ ['$']) ++ ['$'] = ctail ++ ['$'] := by
      simpa [List.append_assoc] using huv
    have h2 : u ++ ['$'] = ctail := List.append_cancel_right h1
    have h3 : (c0 :: ctail).getLast? = some '$' := by
      rw [← h2, show c0 :: (u ++ ['$']) = (c0 :: u) ++ ['$'] from rfl]
      exact List.getLast?_concat _
    exact hlast h3
  · subst hv
    have h1 : (u ++ ['$', '$'] ++ v2) ++ [a] = ctail ++ ['$'] := by
      simpa [List.append_assoc] using huv
    have ha : a = '$' := by
      have hg1 := List.getLast?_concat (a := a) (u ++ ['$', '$'] ++ v2)
      rw [h1, List.getLast?_concat] at hg1
      simpa using hg1.symm
    have h2 : u ++ ['$', '$'] ++ v2 = ctail := by
      subst ha
      exact List.append_cancel_right h1
    have h3 : ['$', '$'] <:+: (c0 :: ctail) := by
      rw [← h2]
      exact List.infix_cons ⟨u, v2, rfl⟩
    exact hinsd h3

/-- C2, block half (amended): a well-formed `$$X$$` whose preceding text
is dollar-free, whose content is non-empty, contains no `$$` and does not
end in `$`, yields a display math token with content exactly `X`. -/
theorem tokenize_block_span (pre content post : List Char)
    (hpre : ∀ c ∈ pre, c ≠ '$') (hne : content ≠ [])
    (hinsd : ¬(['$', '$'] <:+: content)) (hlast : content.getLast? ≠ some '$') :
    ∃ id, RawTok.latex id content true ∈
      tokenize (pre ++ '$' :: '$' :: content ++ '$' :: '$' :: post) := by
  cases content with
  | nil => exact absurd rfl hne
  | cons c0 ctail =>
    rw [show pre ++ '$' :: '$' :: (c0 :: ctail) ++ '$' :: '$' :: post =
      pre ++ ('$' :: '$' :: c0 :: (ctail ++ '$' :: '$' :: post)) by simp]
    unfold tokenize
    rw [List.length_append]
    rw [tokenizeGo_nodollar pre _ _ [] 0 hpre]
    have hm := mathMatchAt_block_eq c0 ctail post (block_content_aux c0 ctail hinsd hlast)
    rw [show ('$' :: '$' :: c0 :: (ctail ++ '$' :: '$' :: post)).length =
      (('$' :: c0 :: (ctail ++ '$' :: '$' :: post)).length) + 1 from rfl]
    rw [tokenizeGo_cons_match _ _ _ hm]
    exact ⟨_, List.mem_append_right _ (List.mem_cons_self _ _)⟩

/-- C2, inline half (amended): a well-formed `$X$` whose preceding text is
dollar-free and whose content is non-empty, newline-free and dollar-free,
yields an inline math token with content exactly `X`. -/
theorem tokenize_inline_span (pre content post : List Char)
    (hpre : ∀ c ∈ pre, c ≠ '$') (hne : content ≠ [])
    (hnl : '\n' ∉ content) (hds : '$' ∉ content) :
    ∃ id, RawTok.latex id content false ∈
      tokenize (pre ++ '$' :: content ++ '$' :: post) := by
  cases content with
  | nil => exact absurd rfl hne
  | cons c0 ctail =>
    rw [show pre ++ '$' :: (c0 :: ctail) ++ '$' :: post =
      pre ++ ('$' :: c0 :: (ctail ++ '$' :: post)) by simp]
    unfold tokenize
    rw [List.length_append]
    rw [tokenizeGo_nodollar pre _ _ [] 0 hpre]
    have hm := mathMatchAt_inline_eq c0 ctail post
      ⟨fun he => hds (show '$' ∈ c0 :: ctail by
          rw [← he]; exact List.mem_cons_self c0 ctail),
        fun he => hnl (show '\n' ∈ c0 :: ctail by
          rw [← he]; exact List.mem_cons_self c0 ctail)⟩
      (fun d hd =>
        ⟨fun he => hds (show '$' ∈ c0 :: ctail by
            rw [← he]; exact List.mem_cons_of_mem c0 hd),
          fun he => hnl (show '\n' ∈ c0 :: ctail by
            rw [← he]; exact List.mem_cons_of_mem c0 hd)⟩)
    rw [show ('$' :: c0 :: (ctail ++ '$' :: post)).length =
      ((c0 :: (ctail ++ '$' :: post)).length) + 1 from rfl]
    rw [tokenizeGo_cons_match _ _ _ hm]
    exact ⟨_, List.mem_append_right _ (List.mem_cons_self _ _)⟩

/-! ## C2 — well-formed spans -/

/-- C2 amended: a well-formed `$$X$$` span is segmented as a display math
token with content exactly `X`, and a well-formed `$X$` span as an inline
math token with content exactly `X`, provided the text before the span
contains no dollar sign and the content cannot be closed early (block: no
`$$` inside `X` and `X` does not end in `$`; inline: no `$` in `X`).
Without those provisos an earlier overlapping match may consume the
span's delimiters (see the counterexample). -/
theorem tokenize_wellformed_spans :
    (∀ pre content post : List Char, (∀ c ∈ pre, c ≠ '$') → content ≠ [] →
      ¬(['$', '$'] <:+: content) → content.getLast? ≠ some '$' →
      ∃ id, RawTok.latex id content true ∈
        tokenize (pre ++ '$' :: '$' :: content ++ '$' :: '$' :: post)) ∧
    (∀ pre content post : List Char, (∀ c ∈ pre, c ≠ '$') → content ≠ [] →
      '\n' ∉ content → '$' ∉ content →
      ∃ id, RawTok.latex id content false ∈
        tokenize (pre ++ '$' :: content ++ '$' :: post)) :=
  ⟨tokenize_block_span, tokenize_inline_span⟩

/-- Witness for the amended C2 at concrete spans. -/
theorem tokenize_wellformed_spans_witness :
    (∃ id, RawTok.latex id ['x', '+', '1'] true ∈
      tokenize (['a', ' '] ++ '$' :: '$' :: ['x', '+', '1'] ++ '$' :: '$' :: ['b'])) ∧
    (∃ id, RawTok.latex id ['y'] false ∈
      tokenize (['a', ' '] ++ '$' :: ['y'] ++ '$' :: ['b'])) :=
  ⟨tokenize_wellformed_spans.1 ['a', ' '] ['x', '+', '1'] ['b']
      (by decide) (by decide) (by decide) (by decide),
    tokenize_wellformed_spans.2 ['a', ' '] ['y'] ['b']
      (by decide) (by decide) (by decide) (by decide)⟩

/-- C2 as stated fails: in `$$x$$` the inline span `$x$` occurs
well-formed (content `x`: non-empty, no newline, no dollar), yet the
segmenter emits only a display token — the block alternative wins, so no
inline math token with content `x` exists. -/
theorem tokenize_span_claim_counterexample : ¬ ClaimC2 := by
  intro h
  obtain ⟨id, hid⟩ := h.2 ['$'] ['x'] ['$'] (by simp)
    (by decide) (by decide)
  have hval : tokenize (['$'] ++ ['$'] ++ ['x'] ++ ['$'] ++ ['$']) =
      [RawTok.latex ['m', '-', '0'] ['x'] true] := by decide
  rw [hval] at hid
  simp at hid

/-! ## C3 — unterminated delimiters -/

/-- The scan of a string in which no position matches accumulates the
whole string as one pending text token. -/
theorem tokenizeGo_nomatch : ∀ (fuel : Nat) (s pending : List Char) (i : Nat),
    (∀ t, t <:+ s → mathMatchAt t = none) →
    tokenizeGo fuel s pending i =
      if pending.reverse ++ s = [] then []
      else [RawTok.text (tokenId 't' i) (pending.reverse ++ s)] := by
  intro fuel
  induction fuel with
  | zero =>
    intro s pending i h
    cases s with
    | nil => simp [tokenizeGo]
    | cons c cs => rfl
  | succ n ih =>
    intro s pending i h
    cases s with
    | nil => simp [tokenizeGo]
    | cons c cs =>
      rw [tokenizeGo_cons_nomatch _ _ _ (h (c :: cs) (List.suffix_refl _))]
      rw [ih cs (c :: pending) i (fun t ht => h t (ht.trans (List.suffix_cons c cs)))]
      have heq : (c :: pending).reverse ++ cs = pending.reverse ++ (c :: cs) := by simp
      rw [heq]

/-- C3 amended: when no substring of the input matches the block or the
inline pattern — in particular when every `$`/`$$` opener is unterminated
— segmentation yields the entire input as a single text token and no math
token at all.  (As stated, the claim fails: an unterminated `$$` opener
can donate its second dollar sign to a shorter overlapping inline match,
see the counterexample.) -/
theorem tokenize_unterminated (s : List Char) (hne : s ≠ [])
    (h : noMathMatchAnywhere s = true) :
    tokenize s = [RawTok.text (tokenId 't' 0) s] := by
  have h2 : ∀ t, t <:+ s → mathMatchAt t = none := by
    intro t ht
    have h3 := List.all_eq_true.mp h t ((List.mem_tails t s).mpr ht)
    exact Option.isNone_iff_eq_none.mp h3
  unfold tokenize
  rw [tokenizeGo_nomatch s.length s [] 0 h2]
  simp [hne]

/-- Witness for the amended C3: an input of unterminated openers is one
literal text token. -/
theorem tokenize_unterminated_witness :
    tokenize ['$', 'a', ' ', 'b'] = [RawTok.text (tokenId 't' 0) ['$', 'a', ' ', 'b']] :=
  tokenize_unterminated ['$', 'a', ' ', 'b'] (by decide) (by decide)

/-- C3 as stated fails: in `$$a$b$` the `$$` opener has no closing `$$`,
yet its second dollar sign becomes the opening delimiter of the inline
match `$a$` — the opener's dollars and the following text do not remain
inside a text token. -/
theorem tokenize_unterminated_claim_counterexample : ¬ ClaimC3 := by
  intro h
  obtain ⟨toks, id, txt, heq, hsuf⟩ := h [] ['a', '$', 'b', '$'] (by decide)
  have hval : tokenize ([] ++ ['$', '$'] ++ ['a', '$', 'b', '$']) =
      [RawTok.text ['t', '-', '0'] ['$'], RawTok.latex ['m', '-', '1'] ['a'] false,
        RawTok.text ['t', '-', '2'] ['b', '$']] := by decide
  rw [hval] at heq
  have hlast := List.getLast?_concat (a := RawTok.text id txt) toks
  rw [← heq] at hlast
  have hcomp : ([RawTok.text ['t', '-', '0'] ['$'],
      RawTok.latex ['m', '-', '1'] ['a'] false,
      RawTok.text ['t', '-', '2'] ['b', '$']] : List RawTok).getLast? =
      some (RawTok.text ['t', '-', '2'] ['b', '$']) := rfl
  rw [hcomp] at hlast
  simp only [Option.some.injEq, RawTok.text.injEq] at hlast
  rw [← hlast.2] at hsuf
  exact absurd hsuf (by decide)

/-! ## C4 — dollar-free inputs -/

/-- Character provenance of a replace pass: every output character is an
input character or a table-replacement character. -/
theorem replaceMacroGo_chars (name : List Char) (table : Char → Option (List Char)) :
    ∀ (fuel : Nat) (s : List Char) (c : Char),
      c ∈ replaceMacroGo name table fuel s →
      c ∈ s ∨ ∃ l rep, table l = some rep ∧ c ∈ rep := by
  intro fuel
  induction fuel with
  | zero =>
    intro s c h
    cases s with
    | nil => simp [replaceMacroGo_nil] at h
    | cons c0 cs => exact Or.inl h
  | succ n ih =>
    intro s c h
    cases s with
    | nil => simp [replaceMacroGo_nil] at h
    | cons c0 cs =>
      cases hm : matchAccentAt name (c0 :: cs) with
      | none =>
        rw [show replaceMacroGo name table (n + 1) (c0 :: cs) =
          c0 :: replaceMacroGo name table n cs by simp only [replaceMacroGo, hm]] at h
        rcases List.mem_cons.mp h with h1 | h1
        · exact Or.inl (by simp [h1])
        · rcases ih cs c h1 with h2 | h2
          · exact Or.inl (by simp [h2])
          · exact Or.inr h2
      | some trip =>
        obtain ⟨matched, lt, rest⟩ := trip
        obtain ⟨hsplit, _, _, _, _⟩ := matchAccentAt_some hm
        cases htab : table lt with
        | none =>
          rw [show replaceMacroGo name table (n + 1) (c0 :: cs) =
            matched ++ replaceMacroGo name table n rest by
              simp only [replaceMacroGo, hm, htab]] at h
          rcases List.mem_append.mp h with h1 | h1
          · exact Or.inl (by rw [hsplit]; exact List.mem_append_left _ h1)
          · rcases ih rest c h1 with h2 | h2
            · exact Or.inl (by rw [hsplit]; exact List.mem_append_right _ h2)
            · exact Or.inr h2
        | some rep =>
          rw [show replaceMacroGo name table (n + 1) (c0 :: cs) =
            rep ++ replaceMacroGo name table n rest by
              simp only [replaceMacroGo, hm, htab]] at h
          rcases List.mem_append.mp h with h1 | h1
          · exact Or.inr ⟨lt, rep, htab, h1⟩
          · rcases ih rest c h1 with h2 | h2
            · exact Or.inl (by rw [hsplit]; exact List.mem_append_right _ h2)
            · exact Or.inr h2

/-- The replacements of a safe table never contain a dollar sign. -/
theorem goodTable_no_dollar {table : Char → Option (List Char)}
    (ht : goodTable table) :
    ∀ l rep, table l = some rep → '$' ∉ rep := by
  intro l rep h hz
  rcases ht l rep h with ⟨c, hc, _, hcd⟩ | ⟨c1, c2, hc, _, _, hc2d, hc1d⟩
  · subst hc
    simp only [List.mem_singleton] at hz
    exact hcd hz.symm
  · subst hc
    simp only [List.mem_cons, List.mem_singleton, List.not_mem_nil, or_false] at hz
    rcases hz with hz | hz
    · exact hc1d hz.symm
    · exact hc2d hz.symm

/-- A dollar-free input stays dollar-free through one pass. -/
theorem replaceMacro_no_dollar {name : List Char} {table : Char → Option (List Char)}
    {s : List Char} (ht : goodTable table) (h : '$' ∉ s) :
    '$' ∉ replaceMacro name table s := by
  intro hin
  rcases replaceMacroGo_chars name table s.length s '$' hin with h1 | ⟨l, rep, hrep, hc⟩
  · exact h h1
  · exact goodTable_no_dollar ht l rep hrep hc

/-- A dollar-free input stays dollar-free through the normalizer. -/
theorem normalize_no_dollar {s : List Char} (h : '$' ∉ s) :
    '$' ∉ normalizeAccentsToUnicode s :=
  replaceMacro_no_dollar dotTable_good
    (replaceMacro_no_dollar tildeTable_good
      (replaceMacro_no_dollar barTable_good
        (replaceMacro_no_dollar hatTable_good h)))

/-- A replace pass never empties a non-empty input. -/
theorem replaceMacroGo_ne_nil (name : List Char) (table : Char → Option (List Char))
    (ht : goodTable table) :
    ∀ (fuel : Nat) (s : List Char), replaceMacroGo name table fuel s = [] → s = [] := by
  intro fuel
  induction fuel with
  | zero =>
    intro s h
    cases s with
    | nil => rfl
    | cons c0 cs => exact h
  | succ n ih =>
    intro s h
    cases s with
    | nil => rfl
    | cons c0 cs =>
      exfalso
      cases hm : matchAccentAt name (c0 :: cs) with
      | none =>
        rw [show replaceMacroGo name table (n + 1) (c0 :: cs) =
          c0 :: replaceMacroGo name table n cs by simp only [replaceMacroGo, hm]] at h
        exact List.cons_ne_nil _ _ h
      | some trip =>
        obtain ⟨matched, lt, rest⟩ := trip
        obtain ⟨hsplit, ws, hshape, _, _⟩ := matchAccentAt_some hm
        cases htab : table lt with
        | none =>
          rw [show replaceMacroGo name table (n + 1) (c0 :: cs) =
            matched ++ replaceMacroGo name table n rest by
              simp only [replaceMacroGo, hm, htab]] at h
          rw [hshape] at h
          simp at h
        | some rep =>
          rw [show replaceMacroGo name table (n + 1) (c0 :: cs) =
            rep ++ replaceMacroGo name table n rest by
              simp only [replaceMacroGo, hm, htab]] at h
          rcases ht lt rep htab with ⟨c, hc, _, _⟩ | ⟨c1, c2, hc, _, _, _, _⟩
          · subst hc; simp at h
          · subst hc; simp at h

/-- The normalizer never empties a non-empty input. -/
theorem normalize_ne_nil {s : List Char} (h : s ≠ []) :
    normalizeAccentsToUnicode s ≠ [] := by
  intro hn
  apply h
  unfold normalizeAccentsToUnicode at hn
  exact replaceMacroGo_ne_nil _ _ hatTable_good _ _
    (replaceMacroGo_ne_nil _ _ barTable_good _ _
      (replaceMacroGo_ne_nil _ _ tildeTable_good _ _
        (replaceMacroGo_ne_nil _ _ dotTable_good _ _ hn)))

/-- C4 amended: a non-empty input with no dollar sign converts to exactly
one text token carrying the whole accent-normalized input.  (The claim as
stated also covers the empty input, on which `tokenize` pushes no token at
all — see the counterexample.) -/
theorem tokenizeAndConvert_no_dollar (kF tF : List Char → Bool → List Char)
    (oF : List Char → List Char) (s : List Char) (hne : s ≠ []) (h : '$' ∉ s) :
    tokenizeAndConvert kF tF oF s =
      [Token.text (tokenId 't' 0) (normalizeAccentsToUnicode s)] := by
  unfold tokenizeAndConvert
  have hn : '$' ∉ normalizeAccentsToUnicode s := normalize_no_dollar h
  have hnn : normalizeAccentsToUnicode s ≠ [] := normalize_ne_nil hne
  have ht : tokenize (normalizeAccentsToUnicode s) =
      [RawTok.text (tokenId 't' 0) (normalizeAccentsToUnicode s)] := by
    apply tokenize_unterminated _ hnn
    unfold noMathMatchAnywhere
    rw [List.all_eq_true]
    intro t htails
    have ht2 := (List.mem_tails t _).mp htails
    cases t with
    | nil => rw [mathMatchAt_nil]; rfl
    | cons c cs =>
      have hc : c ∈ normalizeAccentsToUnicode s := ht2.subset (by simp)
      rw [mathMatchAt_none_of_head c cs (fun he => hn (he ▸ hc))]
      rfl
  rw [ht]
  rfl

/-- Witness for the amended C4 at a concrete dollar-free input. -/
theorem tokenizeAndConvert_no_dollar_witness :
    tokenizeAndConvert (fun l _ => l) (fun l _ => l) (fun l => l) ['a', 'b'] =
      [Token.text (tokenId 't' 0) (normalizeAccentsToUnicode ['a', 'b'])] :=
  tokenizeAndConvert_no_dollar _ _ _ ['a', 'b'] (by decide) (by decide)

/-- C4 as stated fails on the empty input: `tokenize` pushes a trailing
text token only when there is pending text, so the empty string yields no
token at all rather than one empty text token. -/
theorem tokenize_empty_claim_counterexample : ¬ ClaimC4 := by
  intro h
  obtain ⟨id, hid⟩ := h (fun l _ => l) (fun l _ => l) (fun l => l) [] (by simp)
  have hval : tokenizeAndConvert (fun l _ => l) (fun l _ => l) (fun l => l) [] =
      ([] : List Token) := rfl
  rw [hval] at hid
  simp at hid

/-! ## C1 — lossless segmentation -/

/-- Shape of a successful `$$` search. -/
theorem findDollarDollar_some : ∀ (t u v : List Char),
    findDollarDollar t = some (u, v) → t = u ++ '$' :: '$' :: v := by
  intro t
  induction t with
  | nil => intro u v h; exact Option.noConfusion h
  | cons c rest ih =>
    intro u v h
    rw [show findDollarDollar (c :: rest) =
      (if c = '$' ∧ rest.head? = some '$' then some ([], rest.tail)
       else (findDollarDollar rest).map (fun p => (c :: p.1, p.2))) from rfl] at h
    by_cases hc : c = '$' ∧ rest.head? = some '$'
    · rw [if_pos hc] at h
      simp only [Option.some.injEq, Prod.mk.injEq] at h
      obtain ⟨h1, h2⟩ := h
      subst h1
      cases rest with
      | nil => simp at hc
      | cons c2 r2 =>
        obtain ⟨hc1, hc2⟩ := hc
        subst hc1
        simp only [List.head?_cons, Option.some.injEq] at hc2
        subst hc2
        simp only [List.tail_cons] at h2
        subst h2
        rfl
    · rw [if_neg hc] at h
      cases hfd : findDollarDollar rest with
      | none => rw [hfd] at h; simp at h
      | some p =>
        obtain ⟨u2, v2⟩ := p
        rw [hfd] at h
        simp only [Option.map_some', Option.some.injEq, Prod.mk.injEq] at h
        obtain ⟨h1, h2⟩ := h
        subst h2
        rw [← h1, ih u2 v2 hfd]
        rfl

/-- Shape of a successful block match. -/
theorem blockMatchAt_some {s content rest : List Char}
    (h : blockMatchAt s = some (content, rest)) :
    s = '$' :: '$' :: content ++ '$' :: '$' :: rest := by
  unfold blockMatchAt at h
  split at h
  · rename_i a c t
    cases hfd : findDollarDollar t with
    | none => rw [hfd] at h; simp at h
    | some p =>
      obtain ⟨u2, v2⟩ := p
      rw [hfd] at h
      simp only [Option.map_some', Option.some.injEq, Prod.mk.injEq] at h
      obtain ⟨h1, h2⟩ := h
      subst h2
      rw [← h1, findDollarDollar_some t u2 v2 hfd]
      rfl
  · exact absurd h (by simp)

/-- Shape of a successful closing-dollar scan. -/
theorem inlineCont_some : ∀ (t content rest : List Char),
    inlineCont t = some (content, rest) → t = content ++ '$' :: rest := by
  intro t
  induction t with
  | nil => intro content rest h; exact Option.noConfusion h
  | cons c r ih =>
    intro content rest h
    rw [show inlineCont (c :: r) =
      (if c = '$' then some ([], r)
       else if c = '\n' then none
       else (inlineCont r).map (fun p => (c :: p.1, p.2))) from rfl] at h
    by_cases hc : c = '$'
    · rw [if_pos hc] at h
      simp only [Option.some.injEq, Prod.mk.injEq] at h
      obtain ⟨h1, h2⟩ := h
      subst h1 h2 hc
      rfl
    · rw [if_neg hc] at h
      by_cases hn : c = '\n'
      · rw [if_pos hn] at h
        exact absurd h (by simp)
      · rw [if_neg hn] at h
        cases hic : inlineCont r with
        | none => rw [hic] at h; simp at h
        | some p =>
          obtain ⟨u2, v2⟩ := p
          rw [hic] at h
          simp only [Option.map_some', Option.some.injEq, Prod.mk.injEq] at h
          obtain ⟨h1, h2⟩ := h
          subst h2
          rw [← h1, ih u2 v2 hic]
          rfl

/-- Shape of a successful inline match. -/
theorem inlineMatchAt_some {s content rest : List Char}
    (h : inlineMatchAt s = some (content, rest)) :
    s = '$' :: content ++ '$' :: rest := by
  unfold inlineMatchAt at h
  split at h
  · rename_i a c t
    split at h
    · exact absurd h (by simp)
    · cases hic : inlineCont t with
      | none => rw [hic] at h; simp at h
      | some p =>
        obtain ⟨u2, v2⟩ := p
        rw [hic] at h
        simp only [Option.map_some', Option.some.injEq, Prod.mk.injEq] at h
        obtain ⟨h1, h2⟩ := h
        subst h2
        rw [← h1, inlineCont_some t u2 v2 hic]
        rfl
  · exact absurd h (by simp)

/-- Shape of a successful combined match: the input is the re-wrapped
content followed by the rest. -/
theorem mathMatchAt_some {s content rest : List Char} {isBlock : Bool}
    (h : mathMatchAt s = some (content, isBlock, rest)) :
    s = (if isBlock then '$' :: '$' :: content ++ ['$', '$']
         else '$' :: content ++ ['$']) ++ rest := by
  unfold mathMatchAt at h
  cases hb : blockMatchAt s with
  | some p =>
    obtain ⟨u2, v2⟩ := p
    rw [hb] at h
    simp only [Option.some.injEq, Prod.mk.injEq] at h
    obtain ⟨h1, h2, h3⟩ := h
    subst h1 h3
    rw [← h2]
    simpa using blockMatchAt_some hb
  | none =>
    rw [hb] at h
    cases hi : inlineMatchAt s with
    | some p =>
      obtain ⟨u2, v2⟩ := p
      rw [hi] at h
      simp only [Option.some.injEq, Prod.mk.injEq] at h
      obtain ⟨h1, h2, h3⟩ := h
      subst h1 h3
      rw [← h2]
      simpa using inlineMatchAt_some hi
    | none =>
      rw [hi] at h
      exact absurd h (by simp)

/-- Folding list append from an arbitrary seed. -/
theorem foldr_append_seed (A : List (List Char)) (b : List Char) :
    A.foldr (· ++ ·) b = A.foldr (· ++ ·) [] ++ b := by
  induction A with
  | nil => simp
  | cons x A ih => rw [List.foldr_cons, List.foldr_cons, ih, List.append_assoc]

/-- `concatRewrapRaw` distributes over append. -/
theorem concatRewrapRaw_append (l1 l2 : List RawTok) :
    concatRewrapRaw (l1 ++ l2) = concatRewrapRaw l1 ++ concatRewrapRaw l2 := by
  unfold concatRewrapRaw
  rw [List.map_append, List.foldr_append, foldr_append_seed]

/-- The scan reconstructs its input: re-wrapped concatenation of the
emitted segments equals the pending text followed by the remaining
input. -/
theorem concatRewrapRaw_tokenizeGo : ∀ (fuel : Nat) (s pending : List Char) (i : Nat),
    s.length ≤ fuel →
    concatRewrapRaw (tokenizeGo fuel s pending i) = pending.reverse ++ s := by
  intro fuel
  induction fuel with
  | zero =>
    intro s pending i hlen
    have hs : s = [] := List.eq_nil_of_length_eq_zero (Nat.le_zero.mp hlen)
    subst hs
    by_cases hp : pending = []
    · simp [tokenizeGo, hp, concatRewrapRaw]
    · simp [tokenizeGo, hp, concatRewrapRaw]
  | succ n ih =>
    intro s pending i hlen
    cases s with
    | nil =>
      by_cases hp : pending = []
      · simp [tokenizeGo, hp, concatRewrapRaw]
      · simp [tokenizeGo, hp, concatRewrapRaw]
    | cons c cs =>
      cases hm : mathMatchAt (c :: cs) with
      | none =>
        rw [tokenizeGo_cons_nomatch _ _ _ hm]
        rw [ih cs (c :: pending) i (by simp at hlen; omega)]
        simp
      | some trip =>
        obtain ⟨content, isBlock, rest⟩ := trip
        have hshape := mathMatchAt_some hm
        have hrlen : rest.length ≤ n := by
          have h1 : (c :: cs).length =
              ((if isBlock then '$' :: '$' :: content ++ ['$', '$']
                else '$' :: content ++ ['$'])).length + rest.length := by
            rw [hshape]; simp
          have h2 : 1 ≤ ((if isBlock then '$' :: '$' :: content ++ ['$', '$']
              else '$' :: content ++ ['$'])).length := by
            cases isBlock <;> simp
          simp only [List.length_cons] at h1 hlen
          omega
        rw [tokenizeGo_cons_match _ _ _ hm]
        rw [concatRewrapRaw_append]
        have hrec := ih rest [] ((if pending = [] then i else i + 1) + 1) hrlen
        simp only [List.reverse_nil, List.nil_append] at hrec
        have hmid : concatRewrapRaw
            (RawTok.latex (tokenId 'm' (if pending = [] then i else i + 1)) content isBlock ::
              tokenizeGo n rest [] ((if pending = [] then i else i + 1) + 1)) =
            (if isBlock then '$' :: '$' :: content ++ ['$', '$']
             else '$' :: content ++ ['$']) ++ rest := by
          simp only [concatRewrapRaw, List.map_cons, List.foldr_cons]
          rw [show ((tokenizeGo n rest [] ((if pending = [] then i else i + 1) + 1)).map _).foldr
            (· ++ ·) [] = concatRewrapRaw (tokenizeGo n rest []
              ((if pending = [] then i else i + 1) + 1)) from rfl]
          rw [hrec]
        rw [hmid, ← hshape]
        by_cases hp : pending = []
        · simp [hp, concatRewrapRaw]
        · simp [hp, concatRewrapRaw]

/-- Every math segment's content is an infix of the scanned input. -/
theorem tokenizeGo_latex_within : ∀ (fuel : Nat) (s pending : List Char) (i : Nat)
    (id lx : List Char) (d : Bool),
    RawTok.latex id lx d ∈ tokenizeGo fuel s pending i → lx <:+: s := by
  intro fuel
  induction fuel with
  | zero =>
    intro s pending i id lx d h
    cases s with
    | nil =>
      by_cases hp : pending = [] <;> simp [tokenizeGo, hp] at h
    | cons c cs =>
      by_cases hp : pending.reverse ++ c :: cs = [] <;> simp [tokenizeGo, hp] at h
  | succ n ih =>
    intro s pending i id lx d h
    cases s with
    | nil =>
      by_cases hp : pending = [] <;> simp [tokenizeGo, hp] at h
    | cons c cs =>
      cases hm : mathMatchAt (c :: cs) with
      | none =>
        rw [tokenizeGo_cons_nomatch _ _ _ hm] at h
        exact List.infix_cons (ih cs (c :: pending) i id lx d h)
      | some trip =>
        obtain ⟨content, isBlock, rest⟩ := trip
        have hshape := mathMatchAt_some hm
        rw [tokenizeGo_cons_match _ _ _ hm] at h
        rcases List.mem_append.mp h with h1 | h1
        · by_cases hp : pending = [] <;> simp [hp] at h1
        · rcases List.mem_cons.mp h1 with h2 | h2
          · have hlx : lx = content := (RawTok.latex.injEq .. ▸ h2).2.1
            subst hlx
            rw [hshape]
            cases isBlock
            · exact ⟨['$'], '$' :: rest, by simp⟩
            · exact ⟨['$', '$'], '$' :: '$' :: rest, by simp⟩
          · have hinf := ih rest [] ((if pending = [] then i else i + 1) + 1) id lx d h2
            have hrs : rest <:+: (c :: cs) := by
              rw [hshape]
              exact ⟨(if isBlock then '$' :: '$' :: content ++ ['$', '$']
                else '$' :: content ++ ['$']), [], by simp⟩
            exact hinf.trans hrs

/-- The segmenter is lossless on raw segments. -/
theorem tokenize_reconstructs (s : List Char) :
    concatRewrapRaw (tokenize s) = s := by
  unfold tokenize
  rw [concatRewrapRaw_tokenizeGo s.length s [] 0 (Nat.le_refl _)]
  rfl

/-- C1: segmentation is ordered and lossless — concatenating, in token
order, each text token's literal text and each math token's source LaTeX
re-wrapped in the delimiters that matched it reconstructs the
accent-normalized input exactly (`tokenizeAndConvert`,
latexConverter.ts:81-100; the second accent normalization of a math span's
content changes nothing, because the span is an infix of the already
normalized input). -/
theorem tokenizeAndConvert_reconstructs (kF tF : List Char → Bool → List Char)
    (oF : List Char → List Char) (s : List Char) :
    concatRewrap (tokenizeAndConvert kF tF oF s) = normalizeAccentsToUnicode s := by
  unfold tokenizeAndConvert
  have key : ∀ toks : List RawTok,
      (∀ id lx d, RawTok.latex id lx d ∈ toks → normalizeAccentsToUnicode lx = lx) →
      concatRewrap (toks.map fun t =>
        match t with
        | RawTok.text id txt => Token.text id txt
        | RawTok.latex id latex display =>
          Token.math id (normalizeAccentsToUnicode latex) display
            (kF (normalizeAccentsToUnicode latex) display)
            (tF (normalizeAccentsToUnicode latex) display)
            (oF (tF (normalizeAccentsToUnicode latex) display))) =
      concatRewrapRaw toks := by
    intro toks
    induction toks with
    | nil => intro h; rfl
    | cons t ts ih =>
      intro h
      cases t with
      | text id txt =>
        simp only [List.map_cons, concatRewrap, concatRewrapRaw, List.foldr_cons] at *
        rw [ih (fun id2 lx2 d2 hm => h id2 lx2 d2 (by simp [hm]))]
      | latex id lx d =>
        simp only [List.map_cons, concatRewrap, concatRewrapRaw, List.foldr_cons] at *
        rw [ih (fun id2 lx2 d2 hm => h id2 lx2 d2 (by simp [hm]))]
        rw [h id lx d (by simp)]
  rw [key (tokenize (normalizeAccentsToUnicode s)) (fun id lx d hm =>
    normalize_fix_of_within (tokenizeGo_latex_within _ _ _ _ id lx d hm))]
  exact tokenize_reconstructs _

/-! ## C10 — unknown placeholder ids are dropped -/

/-- Shape of a successful lazy id capture: the scanned text is the captured
id, the closing marker, then the returned rest; the id is non-empty. -/
theorem phIdScan_some : ∀ (t id rest : List Char),
    phIdScan t = some (id, rest) → t = id ++ phClose ++ rest ∧ id ≠ [] := by
  intro t
  induction t with
  | nil => intro id rest h; exact Option.noConfusion h
  | cons c cs ih =>
    intro id rest h
    rw [show phIdScan (c :: cs) =
      (if isDotExcluded c then none
       else if phClose.isPrefixOf cs then some ([c], cs.drop 6)
       else (phIdScan cs).map (fun p => (c :: p.1, p.2))) from rfl] at h
    by_cases hd : isDotExcluded c
    · rw [if_pos hd] at h; exact absurd h (by simp)
    · rw [if_neg hd] at h
      by_cases hp : phClose.isPrefixOf cs
      · rw [if_pos hp] at h
        simp only [Option.some.injEq, Prod.mk.injEq] at h
        obtain ⟨h1, h2⟩ := h
        subst h1 h2
        obtain ⟨u, hu⟩ := List.isPrefixOf_iff_prefix.mp hp
        constructor
        · rw [← hu, show (6 : Nat) = phClose.length from rfl, List.drop_left]
          rfl
        · simp
      · rw [if_neg hp] at h
        cases hs : phIdScan cs with
        | none => rw [hs] at h; simp at h
        | some p =>
          obtain ⟨u2, v2⟩ := p
          rw [hs] at h
          simp only [Option.map_some', Option.some.injEq, Prod.mk.injEq] at h
          obtain ⟨h1, h2⟩ := h
          subst h1 h2
          obtain ⟨he, hne⟩ := ih u2 v2 hs
          constructor
          · rw [he]; rfl
          · simp

/-- One scan step of `splitInlineByMathGo` at a placeholder match. -/
theorem splitGo_step_match (tokens : List Token) (fuel : Nat) (c : Char)
    (cs pending id rest : List Char)
    (hpf : phOpen.isPrefixOf (c :: cs) = true)
    (hscan : phIdScan ((c :: cs).drop 6) = some (id, rest)) :
    splitInlineByMathGo tokens (fuel + 1) (c :: cs) pending =
      (if pending = [] then [] else [Sum.inl pending.reverse]) ++
      (match mathMapGet tokens id with
       | some t => [Sum.inr t]
       | none => []) ++
      splitInlineByMathGo tokens fuel rest [] := by
  conv_lhs => unfold splitInlineByMathGo
  rw [if_pos hpf, hscan]

/-- One scan step of `splitInlineByMathGo` at a non-match position. -/
theorem splitGo_step_nomatch (tokens : List Token) (fuel : Nat) (c : Char)
    (cs pending : List Char)
    (hno : ¬(phOpen.isPrefixOf (c :: cs) = true ∧
      (phIdScan ((c :: cs).drop 6)).isSome = true)) :
    splitInlineByMathGo tokens (fuel + 1) (c :: cs) pending =
      splitInlineByMathGo tokens fuel cs (c :: pending) := by
  conv_lhs => unfold splitInlineByMathGo
  by_cases hpf : phOpen.isPrefixOf (c :: cs) = true
  · rw [if_pos hpf]
    cases hscan : phIdScan ((c :: cs).drop 6) with
    | none => rfl
    | some p => exact absurd ⟨hpf, by rw [hscan]; rfl⟩ hno
  · rw [if_neg hpf]

/-- `splitInlineByMathGo` flushes the pending text on empty input. -/
theorem splitGo_nil (tokens : List Token) (fuel : Nat) (pending : List Char) :
    splitInlineByMathGo tokens fuel [] pending =
      if pending = [] then [] else [Sum.inl pending.reverse] := by
  cases fuel <;> rfl

/-- `splitInlineByMathGo` ignores fuel beyond the input length. -/
theorem splitInlineByMathGo_fuel (tokens : List Token) :
    ∀ (fuel fuel' : Nat) (s pending : List Char),
    s.length ≤ fuel → s.length ≤ fuel' →
    splitInlineByMathGo tokens fuel s pending =
      splitInlineByMathGo tokens fuel' s pending := by
  intro fuel
  induction fuel with
  | zero =>
    intro fuel' s pending h h'
    have hs : s = [] := List.eq_nil_of_length_eq_zero (Nat.le_zero.mp h)
    subst hs
    rw [splitGo_nil, splitGo_nil]
  | succ n ih =>
    intro fuel' s pending h h'
    cases s with
    | nil => rw [splitGo_nil, splitGo_nil]
    | cons c cs =>
      have hn : cs.length ≤ n := by simp only [List.length_cons] at h; omega
      cases fuel' with
      | zero => simp at h'
      | succ m =>
        have hm2 : cs.length ≤ m := by simp only [List.length_cons] at h'; omega
        by_cases hmt : phOpen.isPrefixOf (c :: cs) = true ∧
            (phIdScan ((c :: cs).drop 6)).isSome = true
        · obtain ⟨hpf, hsm⟩ := hmt
          obtain ⟨p, hp⟩ := Option.isSome_iff_exists.mp hsm
          obtain ⟨id, rest⟩ := p
          have hr : rest.length ≤ cs.length := by
            obtain ⟨he, -⟩ := phIdScan_some _ _ _ hp
            have h1 : ((c :: cs).drop 6).length = (c :: cs).length - 6 := by simp
            rw [he] at h1
            simp only [List.length_append, List.length_cons] at h1
            have h2 : phClose.length = 6 := rfl
            omega
          rw [splitGo_step_match tokens n c cs pending id rest hpf hp,
              splitGo_step_match tokens m c cs pending id rest hpf hp]
          rw [ih m rest [] (hr.trans hn) (hr.trans hm2)]
        · rw [splitGo_step_nomatch tokens n c cs pending hmt,
              splitGo_step_nomatch tokens m c cs pending hmt]
          rw [ih m cs (c :: pending) hn hm2]

/-- Scanning a placeholder-free prefix just accumulates it into `pending`. -/
theorem splitGo_clean_run (tokens : List Token) :
    ∀ (pre S pending : List Char) (fuel : Nat),
    S.length + pre.length ≤ fuel →
    (∀ t ∈ pre.tails, t ≠ [] →
      ¬(phOpen.isPrefixOf (t ++ S) = true ∧
        (phIdScan ((t ++ S).drop 6)).isSome = true)) →
    splitInlineByMathGo tokens fuel (pre ++ S) pending =
      splitInlineByMathGo tokens (fuel - pre.length) S (pre.reverse ++ pending) := by
  intro pre
  induction pre with
  | nil => intro S pending fuel h hc; simp
  | cons c p ih =>
    intro S pending fuel h hc
    cases fuel with
    | zero => simp only [List.length_cons] at h; omega
    | succ f =>
      have hno : ¬(phOpen.isPrefixOf ((c :: p) ++ S) = true ∧
          (phIdScan (((c :: p) ++ S).drop 6)).isSome = true) :=
        hc (c :: p) ((List.mem_tails _ _).mpr (List.suffix_refl _)) (by simp)
      simp only [List.cons_append]
      rw [splitGo_step_nomatch tokens f c (p ++ S) pending
        (by simpa only [List.cons_append] using hno)]
      rw [ih S (c :: pending) f
        (by simp only [List.length_cons] at h ⊢; omega)
        (fun t ht hne => hc t
          ((List.mem_tails _ _).mpr (((List.mem_tails _ _).mp ht).trans (List.suffix_cons c p))) hne)]
      have e1 : f + 1 - (c :: p).length = f - p.length := by
        simp only [List.length_cons]; omega
      have e2 : (c :: p).reverse ++ pending = p.reverse ++ (c :: pending) := by
        simp
      rw [e1, e2]

/-- Stepping the scan at the head of a well-captured placeholder. -/
theorem splitGo_at_ph (tokens : List Token) (id post pending : List Char)
    (hid : phIdScan (id ++ (phClose ++ post)) = some (id, post)) :
    splitInlineByMathGo tokens (phOpen ++ (id ++ (phClose ++ post))).length
      (phOpen ++ (id ++ (phClose ++ post))) pending =
    (if pending = [] then [] else [Sum.inl pending.reverse]) ++
    (match mathMapGet tokens id with
     | some t => [Sum.inr t]
     | none => []) ++
    splitInlineByMathGo tokens post.length post [] := by
  have hpf : phOpen.isPrefixOf (phOpen ++ (id ++ (phClose ++ post))) = true :=
    List.isPrefixOf_iff_prefix.mpr ⟨_, rfl⟩
  have hlen : (phOpen ++ (id ++ (phClose ++ post))).length =
      ((id ++ (phClose ++ post)).length + 5) + 1 := by
    simp only [List.length_append, phOpen, phClose, List.length_cons, List.length_nil]
    omega
  rw [hlen]
  rw [show phOpen ++ (id ++ (phClose ++ post)) =
    'M' :: ('A' :: 'T' :: 'H' :: 'P' :: 'H' :: (id ++ (phClose ++ post))) from rfl]
  rw [splitGo_step_match tokens ((id ++ (phClose ++ post)).length + 5) 'M'
    ('A' :: 'T' :: 'H' :: 'P' :: 'H' :: (id ++ (phClose ++ post))) pending id post hpf hid]
  rw [splitInlineByMathGo_fuel tokens ((id ++ (phClose ++ post)).length + 5) post.length
    post [] (by simp only [List.length_append]; omega) (Nat.le_refl _)]

/-- C10: in the document-builder path, a substring of a plain-text span that
matches the placeholder pattern `MATHPH<id>PHMATH` but whose captured id is
not the id of any math token is silently dropped by `splitInlineByMath`
(latexConverter.ts:170-184): the output is the preceding text piece followed
by the split of the text after the match — the matched substring appears
neither as a text piece nor as a math token. -/
theorem splitInlineByMath_unknown_id_dropped (tokens : List Token)
    (pre id post : List Char)
    (hclean : ∀ t ∈ pre.tails, t ≠ [] →
      ¬(phOpen.isPrefixOf (t ++ (phOpen ++ (id ++ (phClose ++ post)))) = true ∧
        (phIdScan ((t ++ (phOpen ++ (id ++ (phClose ++ post)))).drop 6)).isSome = true))
    (hid : phIdScan (id ++ (phClose ++ post)) = some (id, post))
    (hmap : mathMapGet tokens id = none) :
    splitInlineByMath tokens (pre ++ (phOpen ++ (id ++ (phClose ++ post)))) =
      (if pre = [] then [] else [Sum.inl pre]) ++ splitInlineByMath tokens post := by
  unfold splitInlineByMath
  rw [splitGo_clean_run tokens pre (phOpen ++ (id ++ (phClose ++ post))) []
    (pre ++ (phOpen ++ (id ++ (phClose ++ post)))).length
    (by simp only [List.length_append]; omega) hclean]
  rw [show (pre ++ (phOpen ++ (id ++ (phClose ++ post)))).length - pre.length
    = (phOpen ++ (id ++ (phClose ++ post))).length from by
      simp only [List.length_append]; omega]
  rw [List.append_nil]
  rw [splitGo_at_ph tokens id post pre.reverse hid]
  rw [hmap]
  by_cases hp : pre = []
  · subst hp; simp
  · rw [if_neg (fun hcon => hp (by simpa using congrArg List.reverse hcon)), if_neg hp]
    simp

/-- Witness for the unknown-id drop: input `aMATHPHzPHMATHb` against a token
list whose only math token has id `m-0`. -/
theorem splitInlineByMath_unknown_id_dropped_witness :
    splitInlineByMath [Token.math ['m', '-', '0'] ['1'] true ['k'] ['t'] ['o']]
        (['a'] ++ (phOpen ++ (['z'] ++ (phClose ++ ['b'])))) =
      (if (['a'] : List Char) = [] then [] else [Sum.inl ['a']]) ++
        splitInlineByMath [Token.math ['m', '-', '0'] ['1'] true ['k'] ['t'] ['o']] ['b'] :=
  splitInlineByMath_unknown_id_dropped
    [Token.math ['m', '-', '0'] ['1'] true ['k'] ['t'] ['o']]
    ['a'] ['z'] ['b'] (by decide) (by decide) (by decide)

/-! ## C5 — the weaver's placeholder substitution -/

/-- `replaceAllGo` on empty input. -/
theorem replaceAllGo_nil (p r : List Char) (fuel : Nat) :
    replaceAllGo p r fuel [] = [] := by
  cases fuel <;> rfl

/-- One scan step of `replaceAllGo` at a pattern occurrence. -/
theorem replaceAllGo_step_hit (p r : List Char) (n : Nat) (c : Char) (cs : List Char)
    (h : (!p.isEmpty && p.isPrefixOf (c :: cs)) = true) :
    replaceAllGo p r (n + 1) (c :: cs) =
      r ++ replaceAllGo p r n ((c :: cs).drop p.length) := by
  conv_lhs => unfold replaceAllGo
  rw [if_pos h]

/-- One scan step of `replaceAllGo` at a non-occurrence. -/
theorem replaceAllGo_step_miss (p r : List Char) (n : Nat) (c : Char) (cs : List Char)
    (h : (!p.isEmpty && p.isPrefixOf (c :: cs)) = false) :
    replaceAllGo p r (n + 1) (c :: cs) = c :: replaceAllGo p r n cs := by
  conv_lhs => unfold replaceAllGo
  rw [if_neg (by simp [h])]

/-- `replaceAllGo` ignores fuel beyond the input length (for a non-empty
pattern). -/
theorem replaceAllGo_fuel (p r : List Char) (hp : 0 < p.length) :
    ∀ (fuel fuel' : Nat) (s : List Char),
    s.length ≤ fuel → s.length ≤ fuel' →
    replaceAllGo p r fuel s = replaceAllGo p r fuel' s := by
  intro fuel
  induction fuel with
  | zero =>
    intro fuel' s h h'
    have hs : s = [] := List.eq_nil_of_length_eq_zero (Nat.le_zero.mp h)
    subst hs
    rw [replaceAllGo_nil, replaceAllGo_nil]
  | succ n ih =>
    intro fuel' s h h'
    cases s with
    | nil => rw [replaceAllGo_nil, replaceAllGo_nil]
    | cons c cs =>
      have hn : cs.length ≤ n := by simp only [List.length_cons] at h; omega
      cases fuel' with
      | zero => simp at h'
      | succ m =>
        have hm2 : cs.length ≤ m := by simp only [List.length_cons] at h'; omega
        by_cases hc : (!p.isEmpty && p.isPrefixOf (c :: cs)) = true
        · rw [replaceAllGo_step_hit p r n c cs hc, replaceAllGo_step_hit p r m c cs hc]
          have hd : ((c :: cs).drop p.length).length ≤ cs.length := by
            simp only [List.length_drop, List.length_cons]
            omega
          rw [ih m ((c :: cs).drop p.length) (hd.trans hn) (hd.trans hm2)]
        · have hf : (!p.isEmpty && p.isPrefixOf (c :: cs)) = false :=
            Bool.eq_false_iff.mpr hc
          rw [replaceAllGo_step_miss p r n c cs hf, replaceAllGo_step_miss p r m c cs hf]
          rw [ih m cs hn hm2]

/-- The placeholder string in head-normal form. -/
theorem mathPlaceholder_cons (id : List Char) :
    mathPlaceholder id =
      'M' :: 'A' :: 'T' :: 'H' :: 'P' :: 'H' :: (id ++ phClose) := by
  simp [mathPlaceholder, phOpen]

/-- A placeholder is never the empty string. -/
theorem mathPlaceholder_not_empty (id : List Char) :
    (mathPlaceholder id).isEmpty = false := by
  rw [mathPlaceholder_cons]
  rfl

/-- `isPrefixOf` fails on a head mismatch. -/
theorem isPrefixOf_head_ne {a b : Char} (as bs : List Char) (h : a ≠ b) :
    ((a :: as).isPrefixOf (b :: bs)) = false := by
  rw [Bool.eq_false_iff]
  intro hcon
  exact h (List.cons_prefix_cons.mp (List.isPrefixOf_iff_prefix.mp hcon)).1

/-- A common left part cancels in a prefix relation. -/
theorem prefix_cancel {l u v : List Char} (h : l ++ u <+: l ++ v) : u <+: v := by
  induction l with
  | nil => simpa using h
  | cons a l2 ih =>
    simp only [List.cons_append] at h
    exact ih (List.cons_prefix_cons.mp h).2

/-- A marker-free character is not a capital of the placeholder markers. -/
theorem phSafeChar_spec {c : Char} (h : phSafeChar c = true) :
    c ≠ 'M' ∧ c ≠ 'A' ∧ c ≠ 'T' ∧ c ≠ 'H' ∧ c ≠ 'P' := by
  unfold phSafeChar at h
  simp only [Bool.not_eq_true', Bool.or_eq_false_iff, decide_eq_false_iff_not] at h
  exact ⟨h.1.1.1.1, h.1.1.1.2, h.1.1.2, h.1.2, h.2⟩

/-- Two marker-free ids followed by the closing marker can only align when
they are equal. -/
theorem ph_core : ∀ (id idu tail : List Char),
    phSafeStr id = true → phSafeStr idu = true →
    (id ++ phClose) <+: (idu ++ (phClose ++ tail)) → id = idu := by
  intro id
  induction id with
  | nil =>
    intro idu tail hs hsu h
    cases idu with
    | nil => rfl
    | cons d du =>
      simp only [List.nil_append, List.cons_append] at h
      rw [show phClose = 'P' :: ['H', 'M', 'A', 'T', 'H'] from rfl] at h
      obtain ⟨h1, -⟩ := List.cons_prefix_cons.mp h
      have hd : phSafeChar d = true := by
        unfold phSafeStr at hsu
        exact (List.all_eq_true.mp hsu) d (List.mem_cons_self d du)
      exact absurd h1.symm (phSafeChar_spec hd).2.2.2.2
  | cons c cu ih =>
    intro idu tail hs hsu h
    cases idu with
    | nil =>
      simp only [List.cons_append, List.nil_append] at h
      rw [show phClose ++ tail = 'P' :: (['H', 'M', 'A', 'T', 'H'] ++ tail) from rfl] at h
      obtain ⟨h1, -⟩ := List.cons_prefix_cons.mp h
      have hc : phSafeChar c = true := by
        unfold phSafeStr at hs
        exact (List.all_eq_true.mp hs) c (List.mem_cons_self c cu)
      exact absurd h1 (phSafeChar_spec hc).2.2.2.2
    | cons d du =>
      simp only [List.cons_append] at h
      obtain ⟨h1, h2⟩ := List.cons_prefix_cons.mp h
      have hcu : phSafeStr cu = true := by
        unfold phSafeStr at hs ⊢
        exact List.all_eq_true.mpr fun x hx =>
          (List.all_eq_true.mp hs) x (List.mem_cons_of_mem c hx)
      have hdu : phSafeStr du = true := by
        unfold phSafeStr at hsu ⊢
        exact List.all_eq_true.mpr fun x hx =>
          (List.all_eq_true.mp hsu) x (List.mem_cons_of_mem d hx)
      rw [h1, ih du tail hcu hdu h2]

/-- The placeholder of one marker-free id is no prefix of the placeholder of
a different marker-free id (whatever follows). -/
theorem ph_not_prefix_of_other {id idu : List Char} (tail : List Char)
    (hs : phSafeStr id = true) (hsu : phSafeStr idu = true) (hne : id ≠ idu) :
    ((mathPlaceholder id).isPrefixOf (mathPlaceholder idu ++ tail)) = false := by
  rw [Bool.eq_false_iff]
  intro hcon
  have hpre := List.isPrefixOf_iff_prefix.mp hcon
  unfold mathPlaceholder at hpre
  have hpre2 : phOpen ++ (id ++ phClose) <+: phOpen ++ (idu ++ (phClose ++ tail)) := by
    simpa [List.append_assoc] using hpre
  exact hne (ph_core id idu tail hs hsu (prefix_cancel hpre2))

/-- The rendered decomposition never begins with `P`: it is empty, or starts
with the `M` of a placeholder or with a marker-free character. -/
theorem flatten_head : ∀ (qs : List ((List Char) ⊕ Token)),
    (∀ p ∈ qs, pieceSafe p) →
    flattenPieces qs = [] ∨ ∃ c t2, flattenPieces qs = c :: t2 ∧ c ≠ 'P' := by
  intro qs
  induction qs with
  | nil => exact fun _ => Or.inl rfl
  | cons p qs2 ih =>
    intro h
    cases p with
    | inl f =>
      cases f with
      | nil =>
        have h2 := ih (fun q hq => h q (List.mem_cons_of_mem _ hq))
        simpa [flattenPieces] using h2
      | cons c f2 =>
        have hsafe : phSafeStr (c :: f2) = true := h (Sum.inl (c :: f2)) (List.mem_cons_self _ _)
        have hc : phSafeChar c = true :=
          (List.all_eq_true.mp hsafe) c (List.mem_cons_self c f2)
        exact Or.inr ⟨c, f2 ++ flattenPieces qs2, by simp [flattenPieces],
          (phSafeChar_spec hc).2.2.2.2⟩
    | inr u =>
      refine Or.inr ⟨'M', 'A' :: 'T' :: 'H' :: 'P' :: 'H' ::
        ((tokenIdOf u ++ phClose) ++ flattenPieces qs2), ?_, by decide⟩
      rw [show flattenPieces (Sum.inr u :: qs2) =
        mathPlaceholder (tokenIdOf u) ++ flattenPieces qs2 from rfl, mathPlaceholder_cons]
      simp [List.cons_append]

/-- Inside the placeholder of a different marker-free id, no position starts
an occurrence of `mathPlaceholder id`: every non-empty suffix, continued by
a tail that does not begin with `P`, fails the prefix test. -/
theorem ph_clean_suffixes {id idu : List Char} (tail : List Char)
    (hs : phSafeStr id = true) (hsu : phSafeStr idu = true) (hne : id ≠ idu)
    (htail : tail = [] ∨ ∃ c t2, tail = c :: t2 ∧ c ≠ 'P') :
    ∀ v, v <:+ mathPlaceholder idu → v ≠ [] →
      ((mathPlaceholder id).isPrefixOf (v ++ tail)) = false := by
  intro v hv hvne
  have hv2 : v <:+ (phOpen ++ idu) ++ phClose := by
    simpa [mathPlaceholder] using hv
  rcases suffix_append_cases hv2 with hcl | ⟨w, hw, hwne, rfl⟩
  · -- v is a suffix of the closing marker PHMATH
    have hvmem : v ∈ phClose.tails := (List.mem_tails _ _).mpr hcl
    have hv7 : v ∈ [['P', 'H', 'M', 'A', 'T', 'H'], ['H', 'M', 'A', 'T', 'H'],
        ['M', 'A', 'T', 'H'], ['A', 'T', 'H'], ['T', 'H'], ['H'], ([] : List Char)] := by
      simpa [phClose] using hvmem
    simp only [List.mem_cons, List.mem_singleton] at hv7
    rcases hv7 with rfl | rfl | rfl | rfl | rfl | rfl | rfl | h0
    · rw [mathPlaceholder_cons, List.cons_append]
      exact isPrefixOf_head_ne _ _ (by decide)
    · rw [mathPlaceholder_cons, List.cons_append]
      exact isPrefixOf_head_ne _ _ (by decide)
    · -- v = MATH: the marker letters match but a P must follow
      rcases htail with rfl | ⟨c, t2, rfl, hcp⟩
      · rw [mathPlaceholder_cons]; rfl
      · rw [mathPlaceholder_cons]
        simp only [List.cons_append, List.nil_append, List.isPrefixOf, Bool.and_eq_false_iff]
        right; right; right; right
        simp [beq_iff_eq, Ne.symm hcp]
    · rw [mathPlaceholder_cons, List.cons_append]
      exact isPrefixOf_head_ne _ _ (by decide)
    · rw [mathPlaceholder_cons, List.cons_append]
      exact isPrefixOf_head_ne _ _ (by decide)
    · rw [mathPlaceholder_cons, List.cons_append]
      exact isPrefixOf_head_ne _ _ (by decide)
    · exact absurd rfl hvne
    · exact absurd h0 (List.not_mem_nil _)
  · -- v = w ++ PHMATH with w a non-empty suffix of MATHPH ++ idu
    rcases suffix_append_cases hw with hwu | ⟨w2, hw2, hw2ne, rfl⟩
    · -- w is a non-empty suffix of the id: marker-free head
      cases w with
      | nil => exact absurd rfl hwne
      | cons c w3 =>
        have hc : phSafeChar c = true :=
          (List.all_eq_true.mp hsu) c (hwu.sublist.subset (List.mem_cons_self c w3))
        rw [mathPlaceholder_cons,
          show ((c :: w3) ++ phClose) ++ tail = c :: ((w3 ++ phClose) ++ tail) from by simp]
        exact isPrefixOf_head_ne _ _ (Ne.symm (phSafeChar_spec hc).1)
    · -- w = w2 ++ idu with w2 a non-empty suffix of the opening marker
      have hw2mem : w2 ∈ phOpen.tails := (List.mem_tails _ _).mpr hw2
      have hw2l : w2 ∈ [['M', 'A', 'T', 'H', 'P', 'H'], ['A', 'T', 'H', 'P', 'H'],
          ['T', 'H', 'P', 'H'], ['H', 'P', 'H'], ['P', 'H'], ['H'], ([] : List Char)] := by
        simpa [phOpen] using hw2mem
      simp only [List.mem_cons, List.mem_singleton] at hw2l
      rcases hw2l with rfl | rfl | rfl | rfl | rfl | rfl | rfl | h0
      · -- w2 = MATHPH: the whole other placeholder stands here
        rw [show ((['M', 'A', 'T', 'H', 'P', 'H'] ++ idu) ++ phClose) ++ tail =
          mathPlaceholder idu ++ tail from by simp [mathPlaceholder, phOpen]]
        exact ph_not_prefix_of_other tail hs hsu hne
      · rw [mathPlaceholder_cons,
          show ((['A', 'T', 'H', 'P', 'H'] ++ idu) ++ phClose) ++ tail =
            'A' :: (((['T', 'H', 'P', 'H'] ++ idu) ++ phClose) ++ tail) from by simp]
        exact isPrefixOf_head_ne _ _ (by decide)
      · rw [mathPlaceholder_cons,
          show ((['T', 'H', 'P', 'H'] ++ idu) ++ phClose) ++ tail =
            'T' :: (((['H', 'P', 'H'] ++ idu) ++ phClose) ++ tail) from by simp]
        exact isPrefixOf_head_ne _ _ (by decide)
      · rw [mathPlaceholder_cons,
          show ((['H', 'P', 'H'] ++ idu) ++ phClose) ++ tail =
            'H' :: (((['P', 'H'] ++ idu) ++ phClose) ++ tail) from by simp]
        exact isPrefixOf_head_ne _ _ (by decide)
      · rw [mathPlaceholder_cons,
          show ((['P', 'H'] ++ idu) ++ phClose) ++ tail =
            'P' :: (((['H'] ++ idu) ++ phClose) ++ tail) from by simp]
        exact isPrefixOf_head_ne _ _ (by decide)
      · rw [mathPlaceholder_cons,
          show ((['H'] ++ idu) ++ phClose) ++ tail =
            'H' :: ((idu ++ phClose) ++ tail) from by simp]
        exact isPrefixOf_head_ne _ _ (by decide)
      · exact absurd rfl hw2ne
      · exact absurd h0 (List.not_mem_nil _)

/-- Scanning over a stretch where the pattern matches at no position copies
it to the output. -/
theorem replaceAllGo_clean_run (p r : List Char) :
    ∀ (u tail : List Char) (fuel : Nat),
    u.length + tail.length ≤ fuel →
    (∀ v, v <:+ u → v ≠ [] → (p.isPrefixOf (v ++ tail)) = false) →
    replaceAllGo p r fuel (u ++ tail) =
      u ++ replaceAllGo p r (fuel - u.length) tail := by
  intro u
  induction u with
  | nil => intro tail fuel h hc; simp
  | cons c u2 ih =>
    intro tail fuel h hc
    cases fuel with
    | zero => simp only [List.length_cons] at h; omega
    | succ f =>
      have hmiss : (!p.isEmpty && p.isPrefixOf (c :: (u2 ++ tail))) = false := by
        have h1 := hc (c :: u2) (List.suffix_refl _) (by simp)
        simp only [List.cons_append] at h1
        simp [h1]
      simp only [List.cons_append]
      rw [replaceAllGo_step_miss p r f c (u2 ++ tail) hmiss]
      rw [ih tail f (by simp only [List.length_cons] at h; omega)
        (fun v hv hvne => hc v (hv.trans (List.suffix_cons c u2)) hvne)]
      have e1 : f + 1 - (c :: u2).length = f - u2.length := by
        simp only [List.length_cons]; omega
      rw [e1]

/-- One `replaceAll` pass on the rendered decomposition: exactly the
placeholder pieces carrying the processed id become the replacement. -/
theorem flatten_replaceAll (id r : List Char) (hs : phSafeStr id = true) :
    ∀ (ps : List ((List Char) ⊕ Token)) (fuel : Nat),
    (∀ p ∈ ps, pieceSafe p) →
    (flattenPieces ps).length ≤ fuel →
    replaceAllGo (mathPlaceholder id) r fuel (flattenPieces ps) =
      flattenPieces (replacePiece id r ps) := by
  intro ps
  induction ps with
  | nil =>
    intro fuel h hl
    rw [show flattenPieces [] = [] from rfl, replaceAllGo_nil]
    rfl
  | cons p ps2 ih =>
    intro fuel hsafe hl
    cases p with
    | inl f =>
      have hfs : phSafeStr f = true := hsafe (Sum.inl f) (List.mem_cons_self _ _)
      rw [show flattenPieces (Sum.inl f :: ps2) = f ++ flattenPieces ps2 from rfl] at hl ⊢
      have hlen : f.length + (flattenPieces ps2).length ≤ fuel := by
        simpa [List.length_append] using hl
      have hclean : ∀ v, v <:+ f → v ≠ [] →
          ((mathPlaceholder id).isPrefixOf (v ++ flattenPieces ps2)) = false := by
        intro v hv hvne
        cases v with
        | nil => exact absurd rfl hvne
        | cons c v2 =>
          have hc : phSafeChar c = true :=
            (List.all_eq_true.mp hfs) c (hv.sublist.subset (List.mem_cons_self c v2))
          rw [mathPlaceholder_cons, List.cons_append]
          exact isPrefixOf_head_ne _ _ (Ne.symm (phSafeChar_spec hc).1)
      rw [replaceAllGo_clean_run (mathPlaceholder id) r f (flattenPieces ps2) fuel
        hlen hclean]
      rw [ih (fuel - f.length) (fun q hq => hsafe q (List.mem_cons_of_mem _ hq)) (by omega)]
      rfl
    | inr u =>
      have hus : phSafeStr (tokenIdOf u) = true := hsafe (Sum.inr u) (List.mem_cons_self _ _)
      rw [show flattenPieces (Sum.inr u :: ps2) =
        mathPlaceholder (tokenIdOf u) ++ flattenPieces ps2 from rfl] at hl ⊢
      have hphlen : (mathPlaceholder (tokenIdOf u)).length = (tokenIdOf u).length + 12 := by
        simp [mathPlaceholder, phOpen, phClose]
      have hlen : (mathPlaceholder (tokenIdOf u)).length + (flattenPieces ps2).length ≤ fuel := by
        simpa [List.length_append] using hl
      by_cases hid : tokenIdOf u = id
      · -- this placeholder is hit and replaced
        subst hid
        cases fuel with
        | zero => omega
        | succ n =>
          have htext : mathPlaceholder (tokenIdOf u) ++ flattenPieces ps2 =
              'M' :: ('A' :: 'T' :: 'H' :: 'P' :: 'H' ::
                ((tokenIdOf u ++ phClose) ++ flattenPieces ps2)) := by
            rw [mathPlaceholder_cons]
            simp [List.cons_append]
          have hhit : (!(mathPlaceholder (tokenIdOf u)).isEmpty &&
              (mathPlaceholder (tokenIdOf u)).isPrefixOf
                (mathPlaceholder (tokenIdOf u) ++ flattenPieces ps2)) = true := by
            rw [mathPlaceholder_not_empty]
            simp only [Bool.not_false, Bool.true_and]
            exact List.isPrefixOf_iff_prefix.mpr ⟨_, rfl⟩
          rw [htext] at hhit
          rw [htext, replaceAllGo_step_hit _ _ n _ _ hhit]
          rw [show ('M' :: ('A' :: 'T' :: 'H' :: 'P' :: 'H' ::
              ((tokenIdOf u ++ phClose) ++ flattenPieces ps2))).drop
              (mathPlaceholder (tokenIdOf u)).length = flattenPieces ps2 from by
            rw [← htext]; exact List.drop_left _ _]
          rw [ih n (fun q hq => hsafe q (List.mem_cons_of_mem _ hq)) (by omega)]
          rw [show flattenPieces (replacePiece (tokenIdOf u) r (Sum.inr u :: ps2)) =
            r ++ flattenPieces (replacePiece (tokenIdOf u) r ps2) from by
              simp [replacePiece, flattenPieces]]
      · -- a different id: the placeholder is copied through unchanged
        have htail := flatten_head ps2 (fun q hq => hsafe q (List.mem_cons_of_mem _ hq))
        have hclean := ph_clean_suffixes (flattenPieces ps2) hs hus
          (fun hcon => hid hcon.symm) htail
        rw [replaceAllGo_clean_run (mathPlaceholder id) r (mathPlaceholder (tokenIdOf u))
          (flattenPieces ps2) fuel hlen hclean]
        rw [ih (fuel - (mathPlaceholder (tokenIdOf u)).length)
          (fun q hq => hsafe q (List.mem_cons_of_mem _ hq)) (by omega)]
        rw [show flattenPieces (replacePiece id r (Sum.inr u :: ps2)) =
          mathPlaceholder (tokenIdOf u) ++ flattenPieces (replacePiece id r ps2) from by
            simp [replacePiece, flattenPieces, hid]]

/-- A decomposition with only marker-free literal pieces flattens to a
marker-free string. -/
theorem flatten_all_safe : ∀ (qs : List ((List Char) ⊕ Token)),
    (∀ p ∈ qs, pieceSafe p) → (∀ u, Sum.inr u ∈ qs → False) →
    phSafeStr (flattenPieces qs) = true := by
  intro qs
  induction qs with
  | nil => intro _ _; rfl
  | cons p qs2 ih =>
    intro hsafe hno
    cases p with
    | inl f =>
      have h1 : phSafeStr f = true := hsafe _ (List.mem_cons_self _ _)
      have h2 := ih (fun q hq => hsafe q (List.mem_cons_of_mem _ hq))
        (fun u hu => hno u (List.mem_cons_of_mem _ hu))
      show phSafeStr (f ++ flattenPieces qs2) = true
      unfold phSafeStr at h1 h2 ⊢
      rw [List.all_append, h1, h2]
      rfl
    | inr u => exact (hno u (List.mem_cons_self _ _)).elim

/-- The weaver's fold keeps the output decomposed into safe pieces whose
placeholders all belong to still-unprocessed math tokens; after the last
token no placeholder piece remains. -/
theorem weave_foldl (replacer : Token → List Char) :
    ∀ (ts : List Token) (ps : List ((List Char) ⊕ Token)),
    (∀ p ∈ ps, pieceSafe p) →
    (∀ u, Sum.inr u ∈ ps → ∃ t, t ∈ ts ∧ isMathTok t = true ∧ tokenIdOf t = tokenIdOf u) →
    (∀ t ∈ ts, isMathTok t = true →
      phSafeStr (replacer t) = true ∧ phSafeStr (tokenIdOf t) = true) →
    ∃ qs, (ts.foldl (fun out t =>
        match t with
        | Token.math id _ _ _ _ _ => replaceAll (mathPlaceholder id) (replacer t) out
        | Token.text _ _ => out) (flattenPieces ps)) = flattenPieces qs ∧
      (∀ p ∈ qs, pieceSafe p) ∧ ∀ u, Sum.inr u ∈ qs → False := by
  intro ts
  induction ts with
  | nil =>
    intro ps hsafe hcover hts
    exact ⟨ps, rfl, hsafe, fun u hu => by
      obtain ⟨t, ht, -, -⟩ := hcover u hu
      exact absurd ht (List.not_mem_nil t)⟩
  | cons t ts2 ih =>
    intro ps hsafe hcover hts
    rw [List.foldl_cons]
    cases t with
    | text id txt =>
      apply ih ps hsafe
      · intro u hu
        obtain ⟨t2, ht2, hm2, hid2⟩ := hcover u hu
        rcases List.mem_cons.mp ht2 with rfl | h3
        · exact absurd hm2 (by simp [isMathTok])
        · exact ⟨t2, h3, hm2, hid2⟩
      · exact fun t2 ht2 hm2 => hts t2 (List.mem_cons_of_mem _ ht2) hm2
    | math id lx dm kh mm om =>
      obtain ⟨hreps, hids⟩ :=
        hts (Token.math id lx dm kh mm om) (List.mem_cons_self _ _) rfl
      have hstep : replaceAll (mathPlaceholder id)
          (replacer (Token.math id lx dm kh mm om)) (flattenPieces ps) =
          flattenPieces (replacePiece id (replacer (Token.math id lx dm kh mm om)) ps) := by
        unfold replaceAll
        exact flatten_replaceAll id _ hids ps (flattenPieces ps).length hsafe (Nat.le_refl _)
      have hsafe2 : ∀ q ∈ replacePiece id (replacer (Token.math id lx dm kh mm om)) ps,
          pieceSafe q := by
        intro q hq
        obtain ⟨q0, hq0, hq0e⟩ := List.mem_map.mp hq
        cases q0 with
        | inl f =>
          rw [← hq0e]
          exact hsafe _ hq0
        | inr u0 =>
          by_cases h2 : tokenIdOf u0 = id
          · rw [← hq0e]
            show pieceSafe (if tokenIdOf u0 = id
              then Sum.inl (replacer (Token.math id lx dm kh mm om)) else Sum.inr u0)
            rw [if_pos h2]
            exact hreps
          · rw [← hq0e]
            show pieceSafe (if tokenIdOf u0 = id
              then Sum.inl (replacer (Token.math id lx dm kh mm om)) else Sum.inr u0)
            rw [if_neg h2]
            exact hsafe _ hq0
      have hcover2 : ∀ u, Sum.inr u ∈
          replacePiece id (replacer (Token.math id lx dm kh mm om)) ps →
          ∃ t, t ∈ ts2 ∧ isMathTok t = true ∧ tokenIdOf t = tokenIdOf u := by
        intro u hu
        obtain ⟨q0, hq0, hq0e⟩ := List.mem_map.mp hu
        cases q0 with
        | inl f => exact absurd hq0e (by simp)
        | inr u0 =>
          by_cases h2 : tokenIdOf u0 = id
          · simp only [h2, if_pos] at hq0e
            exact absurd hq0e (by simp)
          · have he : u0 = u := by simpa [h2] using hq0e
            subst he
            obtain ⟨t2, ht2, hm2, hid2⟩ := hcover u0 hq0
            rcases List.mem_cons.mp ht2 with rfl | h3
            · exact absurd hid2.symm h2
            · exact ⟨t2, h3, hm2, hid2⟩
      obtain ⟨qs, hq1, hq2, hq3⟩ := ih
        (replacePiece id (replacer (Token.math id lx dm kh mm om)) ps) hsafe2 hcover2
        (fun t2 ht2 hm2 => hts t2 (List.mem_cons_of_mem _ ht2) hm2)
      refine ⟨qs, ?_, hq2, hq3⟩
      show List.foldl _ (replaceAll (mathPlaceholder id)
        (replacer (Token.math id lx dm kh mm om)) (flattenPieces ps)) ts2 = flattenPieces qs
      rw [hstep]
      exact hq1

/-- The weaver claim fails as stated: a replacer may itself emit an earlier
token's placeholder, and the weaver never rescans replaced output. -/
theorem weaver_claim_counterexample : ¬ ClaimC5 := by
  intro h
  exact h (fun s => s)
    [Token.math ['a'] [] false [] [] [], Token.math ['b'] [] false [] [] []]
    (fun t => if tokenIdOf t = ['b'] then mathPlaceholder ['a'] else [])
    (Token.math ['a'] [] false [] [] [])
    (by decide) (by decide) (by decide)

/-- C5 (amended): when the markdown renderer's output decomposes into
marker-free literal segments interleaved with placeholders whose ids are
all ids of math tokens of the list, and the replacer's outputs and the math
ids are free of the marker capitals, the woven output contains no
occurrence of any placeholder at all (latexConverter.ts:104-125): each pass
replaces every occurrence of its token's placeholder, and replacements can
neither destroy nor create other placeholders. -/
theorem renderMarkdown_no_placeholder
    (md : List Char → List Char) (tokens : List Token) (replacer : Token → List Char)
    (ps : List ((List Char) ⊕ Token))
    (hmd : md (combinedOfTokens tokens) = flattenPieces ps)
    (hsafe : ∀ p ∈ ps, pieceSafe p)
    (hcover : ∀ u, Sum.inr u ∈ ps →
      ∃ t, t ∈ tokens ∧ isMathTok t = true ∧ tokenIdOf t = tokenIdOf u)
    (hts : ∀ t ∈ tokens, isMathTok t = true →
      phSafeStr (replacer t) = true ∧ phSafeStr (tokenIdOf t) = true)
    (id : List Char) :
    ¬ (mathPlaceholder id <:+: renderMarkdownWithPlaceholders md tokens replacer) := by
  unfold renderMarkdownWithPlaceholders
  rw [hmd]
  obtain ⟨qs, hout, hqsafe, hnoinr⟩ := weave_foldl replacer tokens ps hsafe hcover hts
  rw [hout]
  intro hinf
  have hM : 'M' ∈ flattenPieces qs :=
    hinf.subset (by rw [mathPlaceholder_cons]; exact List.mem_cons_self _ _)
  have hflat : phSafeStr (flattenPieces qs) = true := flatten_all_safe qs hqsafe hnoinr
  exact absurd ((List.all_eq_true.mp hflat) 'M' hM) (by decide)

/-- Witness for the amended weaver property: one inline math token with id
`a`, the identity renderer, and replacement text `x`. -/
theorem renderMarkdown_no_placeholder_witness :
    ¬ (mathPlaceholder ['q'] <:+:
        renderMarkdownWithPlaceholders (fun s => s)
          [Token.math ['a'] [] false [] [] []] (fun _ => ['x'])) :=
  renderMarkdown_no_placeholder (fun s => s)
    [Token.math ['a'] [] false [] [] []] (fun _ => ['x'])
    [Sum.inr (Token.math ['a'] [] false [] [] [])]
    (by decide)
    (by
      intro p hp
      rw [List.mem_singleton] at hp
      subst hp
      exact (by decide : phSafeStr (['a'] : List Char) = true))
    (by
      intro u hu
      rw [List.mem_singleton] at hu
      injection hu with h
      subst h
      exact ⟨Token.math ['a'] [] false [] [] [], List.mem_singleton.mpr rfl, rfl, rfl⟩)
    (by
      intro t ht hm
      rw [List.mem_singleton] at ht
      subst ht
      exact ⟨by decide, by decide⟩)
    ['q']

/-! ## C7 — bold state across a math boundary -/

/-- The segmentation of `**x=$1$ y**`. -/
theorem c7_tokens (kF tF : List Char → Bool → List Char) (oF : List Char → List Char) :
    tokenizeAndConvert kF tF oF ['*', '*', 'x', '=', '$', '1', '$', ' ', 'y', '*', '*'] =
      [Token.text ['t', '-', '0'] ['*', '*', 'x', '='],
       Token.math ['m', '-', '1'] ['1'] false (kF ['1'] false) (tF ['1'] false)
         (oF (tF ['1'] false)),
       Token.text ['t', '-', '2'] [' ', 'y', '*', '*']] := rfl

/-- The placeholder split of the strong node's inner text against the
segmented tokens of `**x=$1$ y**`. -/
theorem c7_split (kF tF : List Char → Bool → List Char) (oF : List Char → List Char) :
    splitInlineByMath
      (tokenizeAndConvert kF tF oF ['*', '*', 'x', '=', '$', '1', '$', ' ', 'y', '*', '*'])
      ['x', '=', 'M', 'A', 'T', 'H', 'P', 'H', 'm', '-', '1', 'P', 'H', 'M', 'A', 'T', 'H',
        ' ', 'y'] =
      [Sum.inl ['x', '='],
       Sum.inr (Token.math ['m', '-', '1'] ['1'] false (kF ['1'] false) (tF ['1'] false)
         (oF (tF ['1'] false))),
       Sum.inl [' ', 'y']] := rfl

/-- C7: for the input `**x=$1$ y**` (with the external markdown lexers
producing their documented shapes and the converted OMML of `1` being plain
text extracting to `1`), the document builder emits exactly one body
paragraph with three runs: bold `x=`, the formula's run, and bold ` y` —
the bold state of the strong node is carried across the placeholder split
(latexConverter.ts:186-279). -/
theorem docx_bold_across_math
    (kF tF : List Char → Bool → List Char) (oF : List Char → List Char)
    (lexInline : List Char → List MdInline) (blockLexer : List Char → List MdBlock)
    (raw : List Char) (if2 lfuel : Nat)
    (hb : blockLexer (combinedDocx
        (tokenizeAndConvert kF tF oF ['*', '*', 'x', '=', '$', '1', '$', ' ', 'y', '*', '*'])) =
      [MdBlock.paragraph
        [MdInline.strong [MdInline.text ['x', '=', 'M', 'A', 'T', 'H', 'P', 'H', 'm', '-', '1',
          'P', 'H', 'M', 'A', 'T', 'H', ' ', 'y']]] raw])
    (hl : lexInline ['x', '=', 'M', 'A', 'T', 'H', 'P', 'H', 'm', '-', '1',
        'P', 'H', 'M', 'A', 'T', 'H', ' ', 'y'] =
      [MdInline.text ['x', '=', 'M', 'A', 'T', 'H', 'P', 'H', 'm', '-', '1',
        'P', 'H', 'M', 'A', 'T', 'H', ' ', 'y']])
    (hplain : isOmmlPlain (oF (tF ['1'] false)) = true)
    (hext : extractTextFromOmml (oF (tF ['1'] false)) = ['1']) :
    generateDocxParagraphs lexInline blockLexer (if2 + 2) lfuel
      (tokenizeAndConvert kF tF oF ['*', '*', 'x', '=', '$', '1', '$', ' ', 'y', '*', '*']) =
    [Paragraph.body
      [Run.text ['x', '='] true false, Run.text ['1'] true false,
       Run.text [' ', 'y'] true false]] := by
  have hrun : runsOfInline lexInline
      (tokenizeAndConvert kF tF oF ['*', '*', 'x', '=', '$', '1', '$', ' ', 'y', '*', '*'])
      (if2 + 1)
      (MdInline.text ['x', '=', 'M', 'A', 'T', 'H', 'P', 'H', 'm', '-', '1',
        'P', 'H', 'M', 'A', 'T', 'H', ' ', 'y']) true false =
      [Run.text ['x', '='] true false, Run.text ['1'] true false,
       Run.text [' ', 'y'] true false] := by
    simp only [runsOfInline, inlineTokensFromText, hl, c7_split kF tF oF,
      List.foldr_cons, List.foldr_nil]
    rw [show tokenOmml (Token.math ['m', '-', '1'] ['1'] false (kF ['1'] false)
      (tF ['1'] false) (oF (tF ['1'] false))) = oF (tF ['1'] false) from rfl]
    rw [hplain, hext]
    rfl
  unfold generateDocxParagraphs
  rw [hb]
  show [Paragraph.body ((runsOfInline lexInline
      (tokenizeAndConvert kF tF oF ['*', '*', 'x', '=', '$', '1', '$', ' ', 'y', '*', '*'])
      (if2 + 1)
      (MdInline.text ['x', '=', 'M', 'A', 'T', 'H', 'P', 'H', 'm', '-', '1',
        'P', 'H', 'M', 'A', 'T', 'H', ' ', 'y']) true false ++ []) ++ [])] ++ [] = _
  rw [hrun]
  simp

/-- Witness for the bold-across-math property: model lexers returning the
documented shapes and an OMML converter producing `<m:t>1</m:t>`. -/
theorem docx_bold_across_math_witness :
    generateDocxParagraphs
      (fun s => [MdInline.text s])
      (fun s => [MdBlock.paragraph
        [MdInline.strong [MdInline.text ['x', '=', 'M', 'A', 'T', 'H', 'P', 'H', 'm', '-', '1',
          'P', 'H', 'M', 'A', 'T', 'H', ' ', 'y']]] s])
      2 0
      (tokenizeAndConvert (fun l _ => l) (fun l _ => l)
        (fun _ => ['<', 'm', ':', 't', '>', '1', '<', '/', 'm', ':', 't', '>'])
        ['*', '*', 'x', '=', '$', '1', '$', ' ', 'y', '*', '*']) =
    [Paragraph.body
      [Run.text ['x', '='] true false, Run.text ['1'] true false,
       Run.text [' ', 'y'] true false]] :=
  docx_bold_across_math (fun l _ => l) (fun l _ => l)
    (fun _ => ['<', 'm', ':', 't', '>', '1', '<', '/', 'm', ':', 't', '>'])
    (fun s => [MdInline.text s])
    (fun s => [MdBlock.paragraph [MdInline.strong [MdInline.text ['x', '=', 'M', 'A', 'T',
      'H', 'P', 'H', 'm', '-', '1', 'P', 'H', 'M', 'A', 'T', 'H', ' ', 'y']]] s])
    (combinedDocx (tokenizeAndConvert (fun l _ => l) (fun l _ => l)
      (fun _ => ['<', 'm', ':', 't', '>', '1', '<', '/', 'm', ':', 't', '>'])
      ['*', '*', 'x', '=', '$', '1', '$', ' ', 'y', '*', '*']))
    0 0 rfl rfl (by decide) (by decide)

end LatexConverter
